import Mathlib

/-!
Verification of the routing/tour-optimization core of `routing_lib`.

The Python source operates on IEEE floats restricted (by documented
preconditions) to non-negative rationals together with `inf`; arithmetic can
still produce `-inf` and `nan` (e.g. `inf - inf` inside 2-opt), so floats are
modelled by the four-constructor type `PF` below with Python float semantics
for `+`, `-`, `<`, `>`.  Node identifiers are strings, Python dicts keyed by
nodes are modelled as total functions updated pointwise (all dictionary reads
performed by the algorithms are at present keys on the verified paths; reads
that can raise `KeyError` in Python are modelled explicitly with `Except`),
and `heapq` is modelled by popping a minimal element of the pending list,
which is exactly the observable behaviour of a binary heap under the
lexicographic tuple order used by `(distance, node)` entries.
-/

/-- Model of a Python float as it is used by the routing core: a rational,
`inf`, `-inf`, or `nan` (finite values are carried as integers: the sources
only add, subtract and compare costs, so no modelled operation leaves ℤ). -/
inductive PF where
  | fin (z : ℤ)
  | inf
  | ninf
  | nan
deriving DecidableEq

namespace PF

/-- Python float addition. -/
def add : PF → PF → PF
  | nan, _ => nan
  | _, nan => nan
  | inf, ninf => nan
  | ninf, inf => nan
  | inf, _ => inf
  | _, inf => inf
  | ninf, _ => ninf
  | _, ninf => ninf
  | fin a, fin b => fin (a + b)

instance : Add PF := ⟨PF.add⟩

/-- Python float negation. -/
def neg : PF → PF
  | fin a => fin (-a)
  | inf => ninf
  | ninf => inf
  | nan => nan

/-- Python float subtraction (`x - y` behaves as `x + (-y)` on these values,
including `inf - inf = nan`). -/
def sub (x y : PF) : PF := x.add y.neg

instance : Sub PF := ⟨PF.sub⟩

/-- Python float strict comparison `x < y`; every comparison involving `nan`
is false. -/
def lt : PF → PF → Bool
  | nan, _ => false
  | _, nan => false
  | fin a, fin b => decide (a < b)
  | fin _, inf => true
  | fin _, ninf => false
  | inf, _ => false
  | ninf, ninf => false
  | ninf, _ => true

/-- Python float comparison `x <= y`; false on `nan`. -/
def le : PF → PF → Bool
  | nan, _ => false
  | _, nan => false
  | fin a, fin b => decide (a ≤ b)
  | fin _, inf => true
  | fin _, ninf => false
  | inf, inf => true
  | inf, _ => false
  | ninf, _ => true

/-- Python `x > y` is `y < x` (also for the `nan` cases). -/
def gt (x y : PF) : Bool := lt y x

/-- The value is a (finite) rational. -/
def isFin : PF → Prop
  | fin _ => True
  | _ => False

instance : DecidablePred isFin := fun x => by cases x <;> simp [isFin] <;> infer_instance

/-- The value is a non-negative rational or `inf`: the documented precondition
on every distance-matrix entry and edge cost ("must be >= 0 or inf"). -/
def isNN : PF → Prop
  | fin q => 0 ≤ q
  | inf => True
  | ninf => False
  | nan => False

instance : DecidablePred isNN := fun x => by cases x <;> simp [isNN] <;> infer_instance

theorem add_comm : ∀ x y : PF, x.add y = y.add x := by
  intro x y
  cases x <;> cases y <;> simp [add] <;> ring

theorem add_assoc : ∀ x y z : PF, (x.add y).add z = x.add (y.add z) := by
  intro x y z
  cases x <;> cases y <;> cases z <;> simp [add] <;> ring

theorem add_fin (a b : ℤ) : (fin a).add (fin b) = fin (a + b) := rfl

theorem isNN_add {x y : PF} (hx : x.isNN) (hy : y.isNN) : (x.add y).isNN := by
  cases x <;> cases y <;> simp [isNN, add] at * <;> positivity

theorem le_refl {x : PF} (h : x ≠ nan) : x.le x = true := by
  cases x <;> simp [le] at *

theorem le_trans {x y z : PF} (h1 : x.le y = true) (h2 : y.le z = true) :
    x.le z = true := by
  cases x <;> cases y <;> cases z <;> simp [le] at * <;> linarith

theorem lt_le {x y : PF} (h : x.lt y = true) : x.le y = true := by
  cases x <;> cases y <;> simp [lt, le] at * <;> linarith

theorem le_of_not_lt {x y : PF} (hx : x ≠ nan) (hy : y ≠ nan)
    (h : ¬ x.lt y = true) : y.le x = true := by
  cases x <;> cases y <;> simp [lt, le] at * <;> linarith

theorem not_lt_of_le {x y : PF} (h : x.le y = true) : ¬ y.lt x = true := by
  cases x <;> cases y <;> simp [lt, le] at * <;> linarith

theorem le_antisymm {x y : PF} (h1 : x.le y = true) (h2 : y.le x = true) :
    x = y := by
  cases x <;> cases y <;> simp [le] at * <;> linarith

theorem le_add_right {x c : PF} (hx : x ≠ nan) (hx2 : x ≠ ninf) (hc : c.isNN) :
    x.le (x.add c) = true := by
  cases x <;> cases c <;> simp [le, add, isNN] at * <;> linarith

theorem add_le_add_right {x y c : PF} (hx : x ≠ ninf) (hc : c.isNN)
    (h : x.le y = true) : (x.add c).le (y.add c) = true := by
  cases x <;> cases y <;> cases c <;> simp [le, add, isNN] at * <;> linarith

theorem not_lt_inf_le {x y : PF} (hy : y ≠ nan) (h : ¬ x.lt y = true)
    (hx : x ≠ inf) (hxn : x ≠ nan) : y.le x = true :=
  le_of_not_lt hxn hy h

theorem isFin_of_add_isFin {x y : PF} (h : (x.add y).isFin) :
    x.isFin ∧ y.isFin := by
  cases x <;> cases y <;> simp [add, isFin] at *

theorem isNN_ne_nan {x : PF} (h : x.isNN) : x ≠ nan := by
  cases x <;> simp [isNN] at *

theorem isNN_ne_ninf {x : PF} (h : x.isNN) : x ≠ ninf := by
  cases x <;> simp [isNN] at *

theorem isFin_ne_inf {x : PF} (h : x.isFin) : x ≠ inf := by
  cases x <;> simp [isFin] at *

theorem isFin_of_lt {x y : PF} (hx : x ≠ ninf) (h : x.lt y = true) : x ≠ inf ∧ x ≠ nan := by
  cases x <;> cases y <;> simp [lt] at *

end PF

/-! ## Python run results -/

/-- Exceptions raised by the routing core. -/
inductive PyExn where
  | keyError
  | valueError
deriving DecidableEq

/-- Result of a fuel-bounded model of a Python computation: normal value,
raised exception, or fuel exhausted before the loop finished. -/
inductive PyRes (α : Type) where
  | ok (a : α)
  | exn (e : PyExn)
  | out
deriving DecidableEq

instance : Monad PyRes where
  pure := .ok
  bind r f := match r with
    | .ok a => f a
    | .exn e => .exn e
    | .out => .out

/-- The run finished normally. -/
def PyRes.isOk {α : Type} : PyRes α → Prop
  | .ok _ => True
  | _ => False

instance {α : Type} : DecidablePred (PyRes.isOk (α := α)) := fun r => by
  cases r <;> simp [PyRes.isOk] <;> infer_instance

/-- Observable status tag of a run result (usable also when the value
contains functions). -/
def PyRes.status {α : Type} : PyRes α → ℕ
  | .ok _ => 0
  | .exn .keyError => 1
  | .exn .valueError => 2
  | .out => 3

/-! ## Held-Karp (`src/algorithms/tsp_held_karp.py`)

Bitmask integers are modelled as `Finset (Fin n)` (bit `j` set iff `j ∈ s`),
the `-1` sentinel for `best_index` as `none`, and the `KeyError` raised by
`parent[(mask, j)]` on a missing key as `PyRes.exn .keyError`.  The DP dictionary
is filled with strictly smaller masks before larger ones, so the memoised
table is exactly the recursive function `DPf` below; `DP.get(key, inf)`
returns `inf` on every key the loop never wrote, which is the final `else`
branch of `DPf`. -/

/-- One step of the Python pattern `if cost < best_cost: best_cost, best_index
= cost, i` (first strict minimum wins), guarded by the membership test of the
`for i in range(n)` loops; the accumulator starts at `(inf, -1)`, with `-1`
rendered as `none`. -/
def selStep {n : ℕ} (p : Fin n → Bool) (f : Fin n → PF)
    (acc : PF × Option (Fin n)) (i : Fin n) : PF × Option (Fin n) :=
  if p i then (if (f i).lt acc.1 then (f i, some i) else acc) else acc

/-- The inner minimisation `for i in range(n): if prev_mask has bit i: ...` of
`tsp_held_karp`, returning `(best_cost, best_index)`. -/
def minSel {n : ℕ} (prev : Finset (Fin n)) (f : Fin n → PF) : PF × Option (Fin n) :=
  (List.finRange n).foldl (selStep (fun i => decide (i ∈ prev)) f) (PF.inf, none)

/-- `DP[(mask, j)]` of `tsp_held_karp`: the base entry `DP[(1 << 0, 0)] = 0`,
the value written by the triple loop for every key `(mask, j)` with bit 0 and
bit `j` set in `mask` and `mask ^ (1 << j) != 0`, and the `DP.get` default
`inf` for every key never written.  The structural `fuel` argument is kept
equal to `s.card` by every caller (each recursive call erases one element),
so the fuel-out branch is unreachable. -/
def DPf {n : ℕ} [NeZero n] (d : Fin n → Fin n → PF) :
    ℕ → Finset (Fin n) → Fin n → PF
  | 0, _, _ => PF.inf
  | fuel + 1, s, j =>
    if s = {0} ∧ j = 0 then PF.fin 0
    else if 0 ∈ s ∧ j ∈ s ∧ (s.erase j).Nonempty then
      (minSel (s.erase j) (fun i => (DPf d fuel (s.erase j) i).add (d i j))).1
    else PF.inf

/-- `parent[(mask, j)].1` — the recorded `best_index` (`none` for `-1`),
with `fuel` the card of `s.erase j` as in `DPf`. -/
def parentIdx {n : ℕ} [NeZero n] (d : Fin n → Fin n → PF) (fuel : ℕ)
    (s : Finset (Fin n)) (j : Fin n) : Option (Fin n) :=
  (minSel (s.erase j) (fun i => (DPf d fuel (s.erase j) i).add (d i j))).2

/-- The reconstruction loop `while j != 0: tour.append(j); mask, j =
parent[(mask, j)]` of `tsp_held_karp`.  Reading `parent` at a key that was
never written (in particular at `best_index = -1`, modelled as `none`) raises
`KeyError`; elements are accumulated in front so
that the accumulator is the reversed visiting order, matching the final
`tour.reverse()`.  `fuel` equals `s.card` at every call, so the fuel-out
branch is unreachable (stepping requires `j ∈ s`, hence `0 < s.card`). -/
def hkWalk {n : ℕ} [NeZero n] (d : Fin n → Fin n → PF) :
    ℕ → Finset (Fin n) → Option (Fin n) → List (Fin n) →
    PyRes (List (Fin n))
  | _, _, none, _ => .exn .keyError
  | 0, _, some _, _ => .out
  | fuel + 1, s, some j, acc =>
    if j = 0 then .ok acc
    else if 0 ∈ s ∧ j ∈ s ∧ (s.erase j).Nonempty then
      hkWalk d fuel (s.erase j) (parentIdx d fuel s j) (j :: acc)
    else .exn .keyError

/-- `tsp_held_karp(distances, index_to_node)`: the final minimisation
`for i in range(1, n)` (rendered as the guard `i ≠ 0` over the same ascending
index sweep), then the parent-pointer walk and the translation of indexes to
node ids.  The returned tour is `[0] ++ collected ++ [0]` after `reverse`,
which is `0 :: acc ++ [0]` for the front-accumulated walk. -/
def tspHeldKarp {n : ℕ} [NeZero n] (d : Fin n → Fin n → PF)
    (ids : Fin n → String) : PyRes (List String × PF) :=
  let best := (List.finRange n).foldl
    (selStep (fun i => decide (i ≠ 0))
      (fun i => (DPf d n Finset.univ i).add (d i 0)))
    (PF.inf, none)
  match hkWalk d n Finset.univ best.2 [] with
  | .exn e => .exn e
  | .out => .out
  | .ok acc => .ok ((((0 : Fin n) :: acc) ++ [0]).map ids, best.1)

/-- Sum of consecutive edge costs along a sequence (the paired tour length
of the data model), for any cost function. -/
def costL {α : Type} (d : α → α → PF) : List α → PF
  | x :: y :: r => (d x y).add (costL d (y :: r))
  | _ => PF.fin 0

/-- The cost function on stop ids induced by a matrix and an index mapping
(`nan` marks a lookup that would raise `KeyError`; it only serves as a proof
device and is never reached under the presence hypotheses used below). -/
def wOf {m : ℕ} (d : Fin m → Fin m → PF) (idx : String → Option (Fin m)) :
    String → String → PF :=
  fun x y =>
    match idx x, idx y with
    | some a, some b => d a b
    | _, _ => PF.nan

/-- A closed tour over all the stops: some anchor, every stop exactly once,
the anchor repeated at the end. -/
def IsClosedTour {n : ℕ} (t : List (Fin n)) : Prop :=
  ∃ y mids, t = y :: mids ++ [y] ∧ (y :: mids).Nodup ∧
    (y :: mids).toFinset = Finset.univ

/-- The closed tour induced by a permutation of the stop indexes, as a list
with the start repeated at the end. -/
def permTour {n : ℕ} [NeZero n] (σ : Equiv.Perm (Fin n)) : List (Fin n) :=
  (List.finRange n).map σ ++ [σ 0]

/-- Length of the closed tour induced by a permutation. -/
def cycleCost {n : ℕ} [NeZero n] (d : Fin n → Fin n → PF) (σ : Equiv.Perm (Fin n)) : PF :=
  costL d (permTour σ)

/-- A simple path over exactly the index set `s`: starts at index 0, ends at
`j`, no repeats. -/
def IsPath {n : ℕ} [NeZero n] (s : Finset (Fin n)) (j : Fin n)
    (p : List (Fin n)) : Prop :=
  p.Nodup ∧ p.toFinset = s ∧ p.head? = some 0 ∧ p.getLast? = some j

/-! ## 2-opt (`src/algorithms/tsp_2opt.py`)

The tour is a list of stop ids; `n = len(best)` is computed once and list
reversal preserves length, so it is threaded as a parameter.  All list reads
`best[k]` performed by the scan satisfy `k < n` (the scan bounds guarantee
it), so they are modelled by a total read with a default that is never
reached.  `node_to_index[x]` on a missing key raises `KeyError`. -/

/-- In-range list read `best[k]` (every executed read is in range). -/
def nth (l : List String) (k : ℕ) : String := (l.get? k).getD ""

/-- The inner `for j in range(i + 1, n - 1)` scan of `tsp_2opt`: returns the
first improving pair `(i, j)` together with `new_cost - old_cost`, or `none`
when the scan finishes without an improvement.  The structural argument `cnt`
is kept equal to `n - 1 - j` by the callers, so `cnt = 0` is exactly the exit
condition `j >= n - 1` of the Python range. -/
def scanJ {m : ℕ} (d : Fin m → Fin m → PF) (idx : String → Option (Fin m))
    (best : List String) (cyc : Bool) (n i : ℕ) (a b : String) (ia ib : Fin m) :
    ℕ → ℕ → Except PyExn (Option (ℕ × ℕ × PF))
  | 0, _ => .ok none
  | cnt + 1, j =>
    let c := nth best j
    let dd := if cyc then nth best ((j + 1) % n) else nth best (j + 1)
    match idx c, idx dd with
    | some ic, some idd =>
      if a = c ∨ b = dd then scanJ d idx best cyc n i a b ia ib cnt (j + 1)
      else
        let oldc := (d ia ib).add (d ic idd)
        let newc := (d ia ic).add (d ib idd)
        if newc.lt oldc then .ok (some (i, j, newc.sub oldc))
        else scanJ d idx best cyc n i a b ia ib cnt (j + 1)
    | _, _ => .error .keyError

/-- The outer `for i in range(1, n - 2)` scan of `tsp_2opt`; the structural
argument `cnt` is kept equal to `n - 2 - i`, so `cnt = 0` is exactly the exit
condition `i >= n - 2`, and the inner scan starting at `j = i + 1` receives
`n - 1 - (i + 1) = cnt`. -/
def scanI {m : ℕ} (d : Fin m → Fin m → PF) (idx : String → Option (Fin m))
    (best : List String) (cyc : Bool) (n : ℕ) :
    ℕ → ℕ → Except PyExn (Option (ℕ × ℕ × PF))
  | 0, _ => .ok none
  | cnt + 1, i =>
    let a := nth best (i - 1)
    let b := nth best i
    match idx a, idx b with
    | some ia, some ib =>
      match scanJ d idx best cyc n i a b ia ib (cnt + 1) (i + 1) with
      | .error e => .error e
      | .ok (some r) => .ok (some r)
      | .ok none => scanI d idx best cyc n cnt (i + 1)
    | _, _ => .error .keyError

/-- The 2-opt segment reversal `best[:i] + best[i:j+1][::-1] + best[j+1:]`. -/
def doSwap (best : List String) (i j : ℕ) : List String :=
  best.take i ++ ((best.drop i).take (j + 1 - i)).reverse ++ best.drop (j + 1)

/-- The `while improved` loop of `tsp_2opt`: find the first improving swap,
apply it, add the cost delta to the running length, and rescan from the top;
stop when a full scan finds no improvement. -/
def twoOptLoop {m : ℕ} (d : Fin m → Fin m → PF) (idx : String → Option (Fin m))
    (cyc : Bool) (n : ℕ) : ℕ → List String → PF → PyRes (List String × PF)
  | 0, _, _ => .out
  | fuel + 1, best, len =>
    match scanI d idx best cyc n (n - 3) 1 with
    | .error e => .exn e
    | .ok none => .ok (best, len)
    | .ok (some (i, j, delta)) =>
        twoOptLoop d idx cyc n fuel (doSwap best i j) (len.add delta)

/-- `tsp_2opt(distances, node_to_index, tour_ids, tour_length)`. -/
def tsp2opt {m : ℕ} (d : Fin m → Fin m → PF) (idx : String → Option (Fin m))
    (tour : List String) (len : PF) (fuel : ℕ) : PyRes (List String × PF) :=
  if tour.length < 4 then .exn .valueError
  else
    let cyc := decide (tour.head? = tour.getLast?)
    twoOptLoop d idx cyc tour.length fuel tour len

/-- Sum of consecutive matrix entries along a tour of stop ids, every id
translated through `node_to_index`; `none` when some id is missing from the
mapping. -/
def costIds {m : ℕ} (d : Fin m → Fin m → PF) (idx : String → Option (Fin m)) :
    List String → Option PF
  | x :: y :: r =>
    match idx x, idx y, costIds d idx (y :: r) with
    | some ix, some iy, some rest => some ((d ix iy).add rest)
    | _, _, _ => none
  | _ => some (PF.fin 0)

/-! ## Graph (`src/graph/core.py`) and Dijkstra (`src/algorithms/dijkstra.py`)

A graph is an insertion-ordered dictionary of nodes, each holding an
insertion-ordered adjacency dictionary (node attributes are never read by the
core and are omitted).  The dictionaries `distances` and `prev` of `dijkstra`
are modelled as total functions (their key set is the node set plus the
source, and every read performed on the verified paths is at a present key);
the heap is modelled by popping a minimal element under the Python tuple
order on `(distance, node)` — exactly the observable behaviour of `heapq`.
The state additionally carries two ghost fields, `processed` (nodes popped
with a non-stale entry) and `discovered` (the source plus every node whose
distance was ever improved by a relaxation), which do not influence the
computation. -/

/-- A graph node: its id and its `neighbours` adjacency dictionary. -/
structure GNode where
  id : String
  neighbours : List (String × PF)
deriving DecidableEq

/-- The graph: its `nodes` dictionary. -/
structure Graph where
  nodes : List GNode
deriving DecidableEq

/-- `graph.nodes[u]` as an optional lookup. -/
def Graph.find (g : Graph) (u : String) : Option GNode :=
  g.nodes.find? (fun nd => nd.id = u)

/-- The node ids of the graph (the keys of `graph.nodes`). -/
def Graph.ids (g : Graph) : List String := g.nodes.map GNode.id

/-- `graph.get_edge_cost(u, v)`: the stored cost, or `inf` when the node or
the edge is absent. -/
def Graph.getEdgeCost (g : Graph) (u v : String) : PF :=
  match g.find u with
  | some nd =>
    match nd.neighbours.lookup v with
    | some c => c
    | none => PF.inf
  | none => PF.inf

/-- Well-formedness maintained by the `Graph` class: node ids are unique
(dictionary keys) and `add_edge` inserts both endpoints, so every neighbour
id is a node id. -/
def Graph.WF (g : Graph) : Prop :=
  (g.nodes.map GNode.id).Nodup ∧
  ∀ nd ∈ g.nodes, ∀ p ∈ nd.neighbours, p.1 ∈ g.ids

/-- All edge costs are non-negative rationals or `inf`. -/
def Graph.NNCosts (g : Graph) : Prop :=
  ∀ nd ∈ g.nodes, ∀ p ∈ nd.neighbours, p.2.isNN

/-- Python tuple comparison on heap entries `(distance, node)`. -/
def tupLt (x y : PF × String) : Bool :=
  x.1.lt y.1 || (x.1 = y.1 && x.2 < y.2)

/-- `heapq.heappop`: remove and return a minimal entry. -/
def popMin : List (PF × String) → Option ((PF × String) × List (PF × String))
  | [] => none
  | x :: xs =>
    let m := xs.foldl (fun acc y => if tupLt y acc then y else acc) x
    some (m, (x :: xs).erase m)

/-- The state of the Dijkstra loop (with the two ghost fields). -/
structure DState where
  dist : String → PF
  prev : String → Option String
  pq : List (PF × String)
  processed : List String
  discovered : List String

/-- The relaxation `for v in graph.get_node(u).neighbours` over the popped
entry `(current_distance, u)`; `get_edge_cost(u, v)` returns the stored cost
for each listed neighbour.  The dead `if cost is None: continue` branch of
the source never fires since `get_edge_cost` never returns `None`. -/
def relaxFold (u : String) (du : PF) (nbrs : List (String × PF))
    (st : DState) : DState :=
  nbrs.foldl
    (fun st p =>
      let newCost := du.add p.2
      if newCost.lt (st.dist p.1) then
        { st with
          dist := fun w => if w = p.1 then newCost else st.dist w,
          prev := fun w => if w = p.1 then some u else st.prev w,
          pq := st.pq ++ [(newCost, p.1)],
          discovered := st.discovered ++ [p.1] }
      else st)
    st

/-- The `while pq` loop of `dijkstra`: pop the minimum, discard stale
entries, stop on the target, otherwise relax the neighbours. -/
def dijkstraLoop (g : Graph) (tgt : Option String) :
    ℕ → DState → PyRes DState
  | 0, _ => .out
  | fuel + 1, st =>
    match popMin st.pq with
    | none => .ok st
    | some ((du, u), rest) =>
      if du.gt (st.dist u) then dijkstraLoop g tgt fuel { st with pq := rest }
      else if tgt = some u then
        .ok { st with pq := rest, processed := st.processed ++ [u] }
      else
        match g.find u with
        | none => .exn .keyError
        | some nd =>
          dijkstraLoop g tgt fuel
            (relaxFold u du nd.neighbours
              { st with pq := rest, processed := st.processed ++ [u] })

/-- The initial state of `dijkstra`: all nodes at `inf`, the source at `0`,
all predecessors `None`, the frontier `[(0.0, source)]`. -/
def dijkstraInit (source : String) : DState :=
  { dist := fun v => if v = source then PF.fin 0 else PF.inf,
    prev := fun _ => none,
    pq := [(PF.fin 0, source)],
    processed := [],
    discovered := [source] }

/-- `dijkstra(graph, source, target)`. -/
def dijkstra (g : Graph) (source : String) (tgt : Option String) (fuel : ℕ) :
    PyRes DState :=
  dijkstraLoop g tgt fuel (dijkstraInit source)

/-- The `while current is not None` walk of `reconstruct_path`; `keys` is the
key set of the `prev` dictionary (the graph's nodes), reading a missing key
raises `KeyError`. -/
def reconWalk (keys : List String) (prev : String → Option String)
    (source : String) : ℕ → Option String → List String → PyRes (List String)
  | _, none, path => .ok path.reverse
  | 0, some _, _ => .out
  | fuel + 1, some current, path =>
    if current = source then .ok (path ++ [current]).reverse
    else if current ∈ keys then
      reconWalk keys prev source fuel (prev current) (path ++ [current])
    else .exn .keyError

/-- `reconstruct_path(prev, source, target)`. -/
def reconstructPath (keys : List String) (prev : String → Option String)
    (source target : String) (fuel : ℕ) : PyRes (List String) :=
  if target = source then .ok [source]
  else if target ∉ keys ∨ prev target = none then .ok []
  else reconWalk keys prev source fuel (some target) []

/-! ## Distance matrix (`src/algorithms/distance_matrix.py`)

`node_to_index` is a dict comprehension, so a duplicated stop keeps the index
of its last occurrence; `index_to_node` maps position to stop.  The matrix is
a function updated pointwise starting from `np.full(inf)`.  Reading
`d[target]` raises `KeyError` when `target` is not a key of the distances
dictionary, whose key set is the graph's nodes plus the source. -/

/-- Pointwise matrix update `matrix[i][j] = v`. -/
def matUpd (mat : ℕ → ℕ → PF) (i j : ℕ) (v : PF) : ℕ → ℕ → PF :=
  fun a b => if a = i ∧ b = j then v else mat a b

/-- `distance_matrix(graph, stops)`; every Dijkstra run and path walk uses
the given fuel. -/
def distanceMatrix (g : Graph) (stops : List String) (fuel : ℕ) :
    PyRes ((ℕ → ℕ → PF) × (String → Option ℕ) × (ℕ → Option String) ×
      List ((String × String) × List String)) := do
  let n2i : String → Option ℕ :=
    fun x => (stops.enum.reverse.find? (fun p => p.2 = x)).map Prod.fst
  let res ← stops.foldlM
    (fun (acc : (ℕ → ℕ → PF) × List ((String × String) × List String)) source => do
      let st ← dijkstra g source none fuel
      stops.foldlM
        (fun (acc2 : (ℕ → ℕ → PF) × List ((String × String) × List String)) target => do
          match n2i source, n2i target with
          | some i, some j =>
            if source = target then
              pure (matUpd acc2.1 i j (PF.fin 0), acc2.2)
            else
              if target ∈ g.ids ∨ target = source then do
                let p ← reconstructPath g.ids st.prev source target fuel
                pure (matUpd acc2.1 i j (st.dist target),
                  acc2.2 ++ [((source, target), p)])
              else (.exn .keyError : PyRes _)
          | _, _ => (.exn .keyError : PyRes _))
        acc)
    ((fun _ _ => PF.inf), ([] : List ((String × String) × List String)))
  pure (res.1, n2i, (fun i => stops.get? i), res.2)

/-! ## Nearest neighbour (`src/algorithms/tsp_nn.py`)

The stops list is threaded as the lookup `names : Fin n → String`; the shape
check `distances.shape != (n, n)` is enforced by the matrix type.  A start id
missing from `node_to_index` (or carrying an out-of-range index, which in
Python would fault later with `IndexError`) is an abnormal termination.
`np.argmin` returns the first index attaining the minimum (matrices obeying
the documented `>= 0 or inf` precondition contain no `nan`, so the scan
below matches it). -/

/-- `int(np.argmin(row))`: first index attaining the minimum. -/
def argminRow {n : ℕ} (row : Fin n → PF) (init : Fin n) : Fin n :=
  (List.finRange n).foldl (fun best i => if (row i).lt (row best) then i else best) init

/-- The `for _ in range(n - 1)` greedy loop of `tsp_nn`, with the remaining
iteration count as the recursion argument. -/
def nnLoop {n : ℕ} (d : Fin n → Fin n → PF) :
    ℕ → (Fin n → Bool) → Fin n → List (Fin n) → PF →
    PyRes ((Fin n → Bool) × Fin n × List (Fin n) × PF)
  | 0, visited, current, touridx, total => .ok (visited, current, touridx, total)
  | k + 1, visited, current, touridx, total =>
    let row : Fin n → PF := fun i => if visited i then PF.inf else d current i
    let nxt := argminRow row ⟨0, current.pos⟩
    let nextCost := row nxt
    if nextCost = PF.inf ∨ nextCost = PF.ninf then .exn .valueError
    else
      nnLoop d k (fun i => if i = nxt then true else visited i) nxt
        (touridx ++ [nxt]) (total.add nextCost)

/-- `tsp_nn(stops, distances, node_to_index, start, return_to_start)`. -/
def tspNN {n : ℕ} (d : Fin n → Fin n → PF) (names : Fin n → String)
    (n2i : String → Option (Fin n)) (start : String) (rts : Bool) :
    PyRes (List String × PF) :=
  match n2i start with
  | none => .exn .valueError
  | some si =>
    match nnLoop d (n - 1) (fun i => decide (i = si)) si [si] (PF.fin 0) with
    | .exn e => .exn e
    | .out => .out
    | .ok (_, current, touridx, total) =>
      if rts then
        let backCost := d current si
        if backCost = PF.inf ∨ backCost = PF.ninf then .exn .valueError
        else .ok ((touridx ++ [si]).map names, total.add backCost)
      else .ok (touridx.map names, total)

/-- Observable projection of a Dijkstra run at one node: the final distance
and predecessor of the node, the processed (finalised) list, and whether the
node was ever discovered. -/
def dijkstraObs (g : Graph) (source : String) (tgt : Option String)
    (fuel : ℕ) (v : String) : Option (PF × Option String × List String × Bool) :=
  match dijkstra g source tgt fuel with
  | .ok st => some (st.dist v, st.prev v, st.processed, decide (v ∈ st.discovered))
  | _ => none

/-! ## Concrete instances used by counterexamples and witnesses -/

/-- The 2-node distance matrix `[[0, 3], [2, 0]]` of the reference test. -/
def hkM2 : Fin 2 → Fin 2 → PF := fun i j =>
  if i = j then PF.fin 0 else if i = 0 then PF.fin 3 else PF.fin 2

/-- A disconnected 2-stop matrix: `[[0, inf], [inf, 0]]`. -/
def hkDisc : Fin 2 → Fin 2 → PF := fun i j =>
  if i = j then PF.fin 0 else PF.inf

/-- Index mapping `A, B, C, D -> 0, 1, 2, 3`. -/
def idxABCD : String → Option (Fin 4)
  | "A" => some 0
  | "B" => some 1
  | "C" => some 2
  | "D" => some 3
  | _ => none

/-- An asymmetric 4-stop matrix (`d B C = 0` but `d C B = 100`) on which the
2-opt incremental length update diverges from the real tour cost. -/
def mAsym : Fin 4 → Fin 4 → PF := fun i j =>
  PF.fin (((([[0, 10, 1, 7], [10, 0, 0, 1], [1, 100, 0, 10],
    [7, 1, 10, 0]] : List (List ℤ)).getD i.val []).getD j.val 0))

/-- A symmetric 4-stop matrix with a crossing in tour `A C B D`. -/
def mSym4 : Fin 4 → Fin 4 → PF := fun i j =>
  PF.fin (((([[0, 1, 2, 9], [1, 0, 9, 1], [2, 9, 0, 1],
    [9, 1, 1, 0]] : List (List ℤ)).getD i.val []).getD j.val 0))

/-- The graph with arcs `A -> B` (cost 1) and `A -> C` (cost 5). -/
def gFork : Graph :=
  ⟨[⟨"A", [("B", PF.fin 1), ("C", PF.fin 5)]⟩, ⟨"B", []⟩, ⟨"C", []⟩]⟩

/-- The undirected triangle `A-B (5), B-C (2), A-C (9)` of the tests. -/
def gTri : Graph :=
  ⟨[⟨"A", [("B", PF.fin 5), ("C", PF.fin 9)]⟩,
    ⟨"B", [("A", PF.fin 5), ("C", PF.fin 2)]⟩,
    ⟨"C", [("B", PF.fin 2), ("A", PF.fin 9)]⟩]⟩

/-- A predecessor mapping with the 2-cycle `A -> B -> A`. -/
def prevCyc : String → Option String := fun v =>
  if v = "A" then some "B" else if v = "B" then some "A" else none

/-- The names `0 -> "A"`, `1 -> "B"` for 2-stop instances. -/
def namesAB : Fin 2 → String := fun i => if i = 0 then "A" else "B"

/-- Index mapping `A, B -> 0, 1`. -/
def idxAB : String → Option (Fin 2)
  | "A" => some 0
  | "B" => some 1
  | _ => none

/-- One step of the predecessor chain followed by `reconstruct_path`. -/
def chainStep (prev : String → Option String) : Option String → Option String
  | none => none
  | some x => prev x

/-- `k` steps of the predecessor chain. -/
def chainIter (prev : String → Option String) :
    ℕ → Option String → Option String
  | 0, c => c
  | k + 1, c => chainIter prev k (chainStep prev c)

/-- A chain state at which the `reconstruct_path` walk necessarily stops:
exhausted (`none`), at the source, or at a key absent from `prev` (which
raises `KeyError`). -/
def chainDone (keys : List String) (source : String) : Option String → Prop
  | none => True
  | some x => x = source ∨ x ∉ keys

/-- A well-founded predecessor mapping: `B -> A`, nothing else. -/
def prevAB : String → Option String := fun v =>
  if v = "B" then some "A" else none

/-- The final state of the early-exit run `dijkstra(gTri, "A", "B")`. -/
def seTri : DState :=
  match dijkstra gTri "A" (some "B") 20 with
  | .ok st => st
  | _ => dijkstraInit "A"

/-- The final state of the full run `dijkstra(gTri, "A")`. -/
def sfTri : DState :=
  match dijkstra gTri "A" none 20 with
  | .ok st => st
  | _ => dijkstraInit "A"

/-- Proof-device invariant of the Dijkstra loop state: every heap priority
is a finite non-negative value at least the node's current tentative
distance, every tentative distance is `+inf` or finite non-negative, and a
predecessor link never increases the tentative distance. -/
def DInv (st : DState) : Prop :=
  (∀ e ∈ st.pq, ∃ r : ℤ, 0 ≤ r ∧ e.1 = PF.fin r ∧
    (st.dist e.2).le (PF.fin r) = true) ∧
  (∀ v, st.dist v = PF.inf ∨ ∃ r : ℤ, 0 ≤ r ∧ st.dist v = PF.fin r) ∧
  (∀ v u, st.prev v = some u → (st.dist u).le (st.dist v) = true)

/-! # Lemmas and theorems -/

/-! ## Further `PF` lemmas -/

theorem PF.add_zero (x : PF) : x.add (PF.fin 0) = x := by
  cases x <;> simp [PF.add]

theorem PF.zero_add (x : PF) : (PF.fin 0).add x = x := by
  cases x <;> simp [PF.add]

theorem PF.inf_add_isNN {x : PF} (hx : x.isNN) : PF.inf.add x = PF.inf := by
  cases x <;> simp [PF.add, PF.isNN] at *

theorem PF.fin_lt_inf (z : ℤ) : (PF.fin z).lt PF.inf = true := rfl

theorem PF.inf_lt_false (x : PF) : PF.inf.lt x = false := by
  cases x <;> simp [PF.lt]

/-! ## The first-strict-minimum folds -/

theorem selStep_fold_cases {n : ℕ} (p : Fin n → Bool) (f : Fin n → PF) :
    ∀ (l : List (Fin n)) (acc : PF × Option (Fin n)),
      l.foldl (selStep p f) acc = acc ∨
      ∃ i ∈ l, p i = true ∧ l.foldl (selStep p f) acc = (f i, some i) ∧
        ∃ y, (f i).lt y = true := by
  intro l
  induction l with
  | nil => intro acc; left; rfl
  | cons x xs ih =>
    intro acc
    by_cases hp : p x = true
    · by_cases hlt : (f x).lt acc.1 = true
      · have hstep : (x :: xs).foldl (selStep p f) acc
            = xs.foldl (selStep p f) (f x, some x) := by
          simp [selStep, hp, hlt]
        rcases ih (f x, some x) with h | ⟨i, hi, hpi, heq, y, hy⟩
        · exact .inr ⟨x, by simp, hp, by rw [hstep, h], acc.1, hlt⟩
        · exact .inr ⟨i, by simp [hi], hpi, by rw [hstep, heq], y, hy⟩
      · have hstep : (x :: xs).foldl (selStep p f) acc
            = xs.foldl (selStep p f) acc := by
          simp [selStep, hp, hlt]
        rcases ih acc with h | ⟨i, hi, hpi, heq, y, hy⟩
        · exact .inl (by rw [hstep, h])
        · exact .inr ⟨i, by simp [hi], hpi, by rw [hstep, heq], y, hy⟩
    · have hstep : (x :: xs).foldl (selStep p f) acc
          = xs.foldl (selStep p f) acc := by
        simp [selStep, hp]
      rcases ih acc with h | ⟨i, hi, hpi, heq, y, hy⟩
      · exact .inl (by rw [hstep, h])
      · exact .inr ⟨i, by simp [hi], hpi, by rw [hstep, heq], y, hy⟩

theorem selStep_fold_le {n : ℕ} (p : Fin n → Bool) (f : Fin n → PF) :
    ∀ (l : List (Fin n)) (acc : PF × Option (Fin n)),
      (∀ i ∈ l, p i = true → f i ≠ PF.nan ∧ f i ≠ PF.ninf) →
      acc.1 ≠ PF.nan → acc.1 ≠ PF.ninf →
      (l.foldl (selStep p f) acc).1 ≠ PF.nan ∧
      (l.foldl (selStep p f) acc).1 ≠ PF.ninf ∧
      (l.foldl (selStep p f) acc).1.le acc.1 = true ∧
      ∀ i ∈ l, p i = true → (l.foldl (selStep p f) acc).1.le (f i) = true := by
  intro l
  induction l with
  | nil =>
    intro acc _ h1 h2
    exact ⟨h1, h2, PF.le_refl h1, by simp⟩
  | cons x xs ih =>
    intro acc hcl h1 h2
    have hcl' : ∀ i ∈ xs, p i = true → f i ≠ PF.nan ∧ f i ≠ PF.ninf :=
      fun i hi => hcl i (by simp [hi])
    by_cases hp : p x = true
    · have hx := hcl x (by simp) hp
      by_cases hlt : (f x).lt acc.1 = true
      · have hstep : (x :: xs).foldl (selStep p f) acc
            = xs.foldl (selStep p f) (f x, some x) := by
          simp [selStep, hp, hlt]
        obtain ⟨ha, hb, hc, hdall⟩ := ih (f x, some x) hcl' hx.1 hx.2
        rw [hstep]
        refine ⟨ha, hb, ?_, ?_⟩
        · exact PF.le_trans hc (PF.lt_le hlt)
        · intro i hi hpi
          rcases List.mem_cons.mp hi with rfl | hi'
          · exact hc
          · exact hdall i hi' hpi
      · have hstep : (x :: xs).foldl (selStep p f) acc
            = xs.foldl (selStep p f) acc := by
          simp [selStep, hp, hlt]
        obtain ⟨ha, hb, hc, hdall⟩ := ih acc hcl' h1 h2
        rw [hstep]
        refine ⟨ha, hb, hc, ?_⟩
        intro i hi hpi
        rcases List.mem_cons.mp hi with rfl | hi'
        · exact PF.le_trans hc (PF.le_of_not_lt hx.1 h1 (by simp [hlt]))
        · exact hdall i hi' hpi
    · have hstep : (x :: xs).foldl (selStep p f) acc
          = xs.foldl (selStep p f) acc := by
        simp [selStep, hp]
      obtain ⟨ha, hb, hc, hdall⟩ := ih acc hcl' h1 h2
      rw [hstep]
      refine ⟨ha, hb, hc, ?_⟩
      intro i hi hpi
      rcases List.mem_cons.mp hi with rfl | hi'
      · exact absurd hpi hp
      · exact hdall i hi' hpi

theorem selStep_fold_const {n : ℕ} (p : Fin n → Bool) (f : Fin n → PF) :
    ∀ (l : List (Fin n)) (acc : PF × Option (Fin n)),
      (∀ i ∈ l, p i = true → f i = PF.inf) →
      l.foldl (selStep p f) acc = acc := by
  intro l
  induction l with
  | nil => intro acc _; rfl
  | cons x xs ih =>
    intro acc hall
    have hx : (x :: xs).foldl (selStep p f) acc = xs.foldl (selStep p f) acc := by
      by_cases hp : p x = true
      · have : f x = PF.inf := hall x (by simp) hp
        simp [selStep, hp, this, PF.inf_lt_false]
      · simp [selStep, hp]
    rw [hx]
    exact ih acc (fun i hi => hall i (by simp [hi]))

theorem selStep_fold_fin_acc {n : ℕ} (p : Fin n → Bool) (f : Fin n → PF) :
    ∀ (l : List (Fin n)) (acc : PF × Option (Fin n)),
      (∀ i ∈ l, p i = true → f i ≠ PF.nan ∧ f i ≠ PF.ninf) →
      acc.1.isFin → (l.foldl (selStep p f) acc).1.isFin := by
  intro l
  induction l with
  | nil => intro acc _ h; exact h
  | cons x xs ih =>
    intro acc hcl hfin
    have hcl' : ∀ i ∈ xs, p i = true → f i ≠ PF.nan ∧ f i ≠ PF.ninf :=
      fun i hi => hcl i (by simp [hi])
    by_cases hp : p x = true
    · by_cases hlt : (f x).lt acc.1 = true
      · have hstep : (x :: xs).foldl (selStep p f) acc
            = xs.foldl (selStep p f) (f x, some x) := by
          simp [selStep, hp, hlt]
        rw [hstep]
        refine ih _ hcl' ?_
        have hx := hcl x (by simp) hp
        have := PF.isFin_of_lt hx.2 hlt
        cases hfx : f x <;> simp_all [PF.isFin]
      · have hstep : (x :: xs).foldl (selStep p f) acc
            = xs.foldl (selStep p f) acc := by
          simp [selStep, hp, hlt]
        rw [hstep]; exact ih acc hcl' hfin
    · have hstep : (x :: xs).foldl (selStep p f) acc
          = xs.foldl (selStep p f) acc := by
        simp [selStep, hp]
      rw [hstep]; exact ih acc hcl' hfin

theorem selStep_fold_fin {n : ℕ} (p : Fin n → Bool) (f : Fin n → PF) :
    ∀ (l : List (Fin n)) (acc : PF × Option (Fin n)),
      (∀ i ∈ l, p i = true → f i ≠ PF.nan ∧ f i ≠ PF.ninf) →
      (acc.1.isFin ∨ acc.1 = PF.inf) →
      (∃ i ∈ l, p i = true ∧ (f i).isFin) →
      (l.foldl (selStep p f) acc).1.isFin := by
  intro l
  induction l with
  | nil => rintro acc _ _ ⟨i, hi, _⟩; simp at hi
  | cons x xs ih =>
    intro acc hcl hacc ⟨i, hi, hpi, hfi⟩
    have hcl' : ∀ i ∈ xs, p i = true → f i ≠ PF.nan ∧ f i ≠ PF.ninf :=
      fun i hi => hcl i (by simp [hi])
    by_cases hp : p x = true
    · by_cases hlt : (f x).lt acc.1 = true
      · have hstep : (x :: xs).foldl (selStep p f) acc
            = xs.foldl (selStep p f) (f x, some x) := by
          simp [selStep, hp, hlt]
        rw [hstep]
        refine selStep_fold_fin_acc p f xs _ hcl' ?_
        have hx := hcl x (by simp) hp
        have := PF.isFin_of_lt hx.2 hlt
        cases hfx : f x <;> simp_all [PF.isFin]
      · have hstep : (x :: xs).foldl (selStep p f) acc
            = xs.foldl (selStep p f) acc := by
          simp [selStep, hp, hlt]
        rw [hstep]
        rcases List.mem_cons.mp hi with rfl | hi'
        · -- the witness is `x` itself, so `acc.1` must already be finite
          rcases hacc with hacc | hacc
          · exact selStep_fold_fin_acc p f xs acc hcl' hacc
          · exfalso
            rcases hfx : f i with z | _ | _ | _ <;> rw [hfx] at hfi hlt <;>
              simp [PF.isFin] at hfi <;> rw [hacc] at hlt <;>
              simp [PF.lt] at hlt
        · exact ih acc hcl' hacc ⟨i, hi', hpi, hfi⟩
    · have hstep : (x :: xs).foldl (selStep p f) acc
          = xs.foldl (selStep p f) acc := by
        simp [selStep, hp]
      rw [hstep]
      rcases List.mem_cons.mp hi with rfl | hi'
      · exact absurd hpi hp
      · exact ih acc hcl' hacc ⟨i, hi', hpi, hfi⟩

/-! ## Tour-cost lemmas -/

theorem costL_append_last {α : Type} (d : α → α → PF) :
    ∀ (t : List α) (i x : α), t.getLast? = some i →
      costL d (t ++ [x]) = (costL d t).add (d i x) := by
  intro t
  induction t with
  | nil => intro i x h; simp at h
  | cons a t ih =>
    intro i x h
    cases t with
    | nil =>
      simp at h
      subst h
      simp [costL, PF.add_zero, PF.zero_add]
    | cons b r =>
      have hlast : (b :: r).getLast? = some i := by
        rw [List.getLast?_cons_cons] at h; exact h
      have : costL d ((a :: b :: r) ++ [x])
          = (d a b).add (costL d ((b :: r) ++ [x])) := by
        simp [costL]
      rw [this, ih i x hlast, ← PF.add_assoc]
      simp [costL]

theorem costL_append {α : Type} (d : α → α → PF) :
    ∀ (A B : List α) (a0 b0 : α),
      A.getLast? = some a0 → B.head? = some b0 →
      costL d (A ++ B) = (costL d A).add ((d a0 b0).add (costL d B)) := by
  intro A
  induction A with
  | nil => intro B a0 b0 h _; simp at h
  | cons a t ih =>
    intro B a0 b0 h hB
    cases t with
    | nil =>
      simp at h
      subst h
      cases B with
      | nil => simp at hB
      | cons b rB =>
        simp at hB
        subst hB
        simp [costL, PF.zero_add]
    | cons c r =>
      have hlast : (c :: r).getLast? = some a0 := by
        rw [List.getLast?_cons_cons] at h; exact h
      have h1 : costL d ((a :: c :: r) ++ B)
          = (d a c).add (costL d ((c :: r) ++ B)) := by
        simp [costL]
      rw [h1, ih B a0 b0 hlast hB, ← PF.add_assoc]
      simp [costL]

/-! ## DP-table lemmas for Held-Karp -/

theorem DPf_not_zero_mem {n : ℕ} [NeZero n] (d : Fin n → Fin n → PF)
    (fuel : ℕ) (s : Finset (Fin n)) (j : Fin n) (h : (0 : Fin n) ∉ s) :
    DPf d fuel s j = PF.inf := by
  cases fuel with
  | zero => rfl
  | succ k =>
    rw [DPf]
    have h1 : ¬ (s = {0} ∧ j = 0) := by
      rintro ⟨rfl, _⟩; simp at h
    have h2 : ¬ ((0 : Fin n) ∈ s ∧ j ∈ s ∧ (s.erase j).Nonempty) := by
      rintro ⟨h0, _⟩; exact h h0
    simp [h1, h2]

theorem DPf_base {n : ℕ} [NeZero n] (d : Fin n → Fin n → PF) (fuel : ℕ) :
    DPf d (fuel + 1) {0} (0 : Fin n) = PF.fin 0 := by
  rw [DPf]; simp

theorem DPf_isNN {n : ℕ} [NeZero n] {d : Fin n → Fin n → PF}
    (hd : ∀ i j, (d i j).isNN) :
    ∀ (fuel : ℕ) (s : Finset (Fin n)) (j : Fin n), (DPf d fuel s j).isNN := by
  intro fuel
  induction fuel with
  | zero => intro s j; simp [DPf, PF.isNN]
  | succ k ih =>
    intro s j
    rw [DPf]
    split
    · simp [PF.isNN]
    · split
      · rcases selStep_fold_cases (fun i => decide (i ∈ s.erase j))
          (fun i => (DPf d k (s.erase j) i).add (d i j))
          (List.finRange n) (PF.inf, none) with h | ⟨i, _, _, heq, _⟩
        · rw [minSel, h]; simp [PF.isNN]
        · rw [minSel, heq]
          exact PF.isNN_add (ih _ _) (hd i j)
      · simp [PF.isNN]

theorem DPf_zero_col {n : ℕ} [NeZero n] {d : Fin n → Fin n → PF}
    (hd : ∀ i j, (d i j).isNN) (fuel : ℕ) (s : Finset (Fin n))
    (hs : s ≠ {0}) : DPf d fuel s (0 : Fin n) = PF.inf := by
  cases fuel with
  | zero => rfl
  | succ k =>
    rw [DPf]
    have h1 : ¬ (s = {0} ∧ (0 : Fin n) = 0) := by
      rintro ⟨rfl, _⟩; exact hs rfl
    rw [if_neg h1]
    split
    · rw [minSel, selStep_fold_const]
      intro i _ hpi
      have hi : i ∈ s.erase 0 := by simpa using hpi
      have h0 : (0 : Fin n) ∉ s.erase 0 := Finset.not_mem_erase _ _
      rw [DPf_not_zero_mem d k _ i h0]
      exact PF.inf_add_isNN (hd i 0)
    · rfl

theorem DPf_isFin {n : ℕ} [NeZero n] {d : Fin n → Fin n → PF}
    (hfin : ∀ i j, (d i j).isFin) (hd : ∀ i j, (d i j).isNN) :
    ∀ (fuel : ℕ) (s : Finset (Fin n)) (j : Fin n), s.card ≤ fuel →
      (0 : Fin n) ∈ s → j ∈ s → j ≠ 0 → (DPf d fuel s j).isFin := by
  intro fuel
  induction fuel with
  | zero =>
    intro s j hc h0 _ _
    exact absurd (Finset.card_pos.mpr ⟨0, h0⟩) (by omega)
  | succ k ih =>
    intro s j hc h0 hj hj0
    rw [DPf]
    have h1 : ¬ (s = {0} ∧ j = 0) := by rintro ⟨_, rfl⟩; exact hj0 rfl
    have hmem : (0 : Fin n) ∈ s.erase j := Finset.mem_erase.mpr ⟨Ne.symm hj0, h0⟩
    have h2 : (0 : Fin n) ∈ s ∧ j ∈ s ∧ (s.erase j).Nonempty :=
      ⟨h0, hj, ⟨0, hmem⟩⟩
    rw [if_neg h1, if_pos h2, minSel]
    have hcard : (s.erase j).card ≤ k := by
      have := Finset.card_erase_of_mem hj
      omega
    have hclean : ∀ i ∈ List.finRange n,
        (fun i => decide (i ∈ s.erase j)) i = true →
        (DPf d k (s.erase j) i).add (d i j) ≠ PF.nan ∧
        (DPf d k (s.erase j) i).add (d i j) ≠ PF.ninf := by
      intro i _ _
      have := PF.isNN_add (DPf_isNN hd k (s.erase j) i) (hd i j)
      exact ⟨PF.isNN_ne_nan this, PF.isNN_ne_ninf this⟩
    apply selStep_fold_fin _ _ _ _ hclean (Or.inr rfl)
    by_cases hsingle : s.erase j = {0}
    · refine ⟨0, List.mem_finRange 0, by simp [hmem], ?_⟩
      rw [hsingle]
      have hk : 1 ≤ k := by
        rw [hsingle] at hcard; simpa using hcard
      obtain ⟨k1, rfl⟩ := Nat.exists_eq_add_of_le hk
      rw [Nat.add_comm, DPf_base]
      have := hfin 0 j
      cases hdj : d 0 j <;> simp [hdj, PF.isFin, PF.add] at this ⊢
    · obtain ⟨i, himem, hine⟩ : ∃ i ∈ s.erase j, i ≠ 0 := by
        by_contra hall
        push_neg at hall
        exact hsingle (Finset.eq_singleton_iff_unique_mem.mpr ⟨hmem, fun x hx => hall x hx⟩)
      refine ⟨i, List.mem_finRange i, by simp [himem], ?_⟩
      have hfin1 := ih (s.erase j) i hcard hmem himem hine
      have hfin2 := hfin i j
      cases h1 : DPf d k (s.erase j) i <;> rw [h1] at hfin1 <;>
        cases h2 : d i j <;> rw [h2] at hfin2 <;>
        simp [PF.isFin, PF.add] at hfin1 hfin2 ⊢

theorem mem_of_getLastEq {α : Type} {l : List α} {a : α}
    (h : l.getLast? = some a) : a ∈ l := by
  obtain ⟨hne, heq⟩ := List.mem_getLast?_eq_getLast (Option.mem_def.mpr h)
  rw [heq]
  exact List.getLast_mem hne

theorem DPf_le_costL {n : ℕ} [NeZero n] {d : Fin n → Fin n → PF}
    (hd : ∀ i j, (d i j).isNN) :
    ∀ (p : List (Fin n)) (s : Finset (Fin n)) (j : Fin n) (fuel : ℕ),
      s.card ≤ fuel → IsPath s j p →
      (DPf d fuel s j).le (costL d p) = true := by
  intro p
  induction p using List.reverseRecOn with
  | nil =>
    intro s j fuel _ hp
    rcases hp with ⟨_, _, hh, _⟩
    simp at hh
  | append_singleton q x ih =>
    intro s j fuel hcard hp
    obtain ⟨hnd, hts, hh, hl⟩ := hp
    rw [List.getLast?_concat] at hl
    have hjx : j = x := by injection hl with h; exact h.symm
    subst hjx
    cases q with
    | nil =>
      simp at hh
      subst hh
      have hs : s = {0} := by
        rw [← hts]; simp
      subst hs
      rcases fuel with _ | k
      · simp at hcard
      · rw [DPf_base]
        simp [costL, PF.le]
    | cons q0 qt =>
      have hq : (q0 :: qt) ≠ ([] : List (Fin n)) := by simp
      have hh0 : q0 = 0 := by simpa using hh
      obtain ⟨i, hi⟩ : ∃ i, (q0 :: qt).getLast? = some i :=
        ⟨(q0 :: qt).getLast hq, List.getLast?_eq_getLast _ hq⟩
      have hxq : j ∉ (q0 :: qt) := by
        have := hnd
        rw [List.nodup_append] at this
        intro hmem
        exact this.2.2 hmem (by simp)
      have h0q : (0 : Fin n) ∈ (q0 :: qt) := by rw [← hh0]; simp
      have hx0 : j ≠ 0 := fun h => hxq (h ▸ h0q)
      have h0s : (0 : Fin n) ∈ s := by
        rw [← hts]
        exact List.mem_toFinset.mpr (List.mem_append.mpr (Or.inl h0q))
      have hxs : j ∈ s := by rw [← hts]; simp
      have hpath : IsPath (s.erase j) i (q0 :: qt) := by
        refine ⟨(List.nodup_append.mp hnd).1, ?_, by rw [List.head?_cons, hh0], hi⟩
        have : s = insert j (q0 :: qt).toFinset := by
          rw [← hts]
          ext y
          simp
          tauto
        rw [this, Finset.erase_insert]
        intro hxm
        exact hxq (List.mem_toFinset.mp hxm)
      rcases fuel with _ | k
      · exact absurd (Finset.card_pos.mpr ⟨j, hxs⟩) (by omega)
      · have hmem0 : (0 : Fin n) ∈ s.erase j := Finset.mem_erase.mpr ⟨Ne.symm hx0, h0s⟩
        have hcard2 : (s.erase j).card ≤ k := by
          have := Finset.card_erase_of_mem hxs
          omega
        rw [DPf]
        rw [if_neg (by rintro ⟨_, h⟩; exact hx0 h),
          if_pos ⟨h0s, hxs, ⟨0, hmem0⟩⟩, minSel]
        have hclean : ∀ y ∈ List.finRange n,
            (fun y => decide (y ∈ s.erase j)) y = true →
            (DPf d k (s.erase j) y).add (d y j) ≠ PF.nan ∧
            (DPf d k (s.erase j) y).add (d y j) ≠ PF.ninf := by
          intro y _ _
          have := PF.isNN_add (DPf_isNN hd k (s.erase j) y) (hd y j)
          exact ⟨PF.isNN_ne_nan this, PF.isNN_ne_ninf this⟩
        have himem : i ∈ s.erase j := by
          have : i ∈ (q0 :: qt) := mem_of_getLastEq hi
          rw [← hpath.2.1]
          exact List.mem_toFinset.mpr this
        obtain ⟨_, _, _, hball⟩ := selStep_fold_le
          (fun y => decide (y ∈ s.erase j))
          (fun y => (DPf d k (s.erase j) y).add (d y j))
          (List.finRange n) (PF.inf, none) hclean (by simp) (by simp)
        have hb := hball i (List.mem_finRange i) (by simp [himem])
        have hih := ih (s.erase j) i k hcard2 hpath
        have hstep : ((DPf d k (s.erase j) i).add (d i j)).le
            ((costL d (q0 :: qt)).add (d i j)) = true :=
          PF.add_le_add_right
            (PF.isNN_ne_ninf (DPf_isNN hd k (s.erase j) i)) (hd i j) hih
        rw [costL_append_last d (q0 :: qt) i j hi]
        exact PF.le_trans hb hstep

theorem DPf_finite_path {n : ℕ} [NeZero n] {d : Fin n → Fin n → PF}
    (hd : ∀ i j, (d i j).isNN) :
    ∀ (fuel : ℕ) (s : Finset (Fin n)) (j : Fin n), s.card ≤ fuel →
      (DPf d fuel s j).isFin →
      ∃ p, IsPath s j p ∧ (costL d p).isFin := by
  intro fuel
  induction fuel with
  | zero =>
    intro s j _ hfin
    simp [DPf, PF.isFin] at hfin
  | succ k ih =>
    intro s j hcard hfin
    rw [DPf] at hfin
    by_cases hbase : s = {0} ∧ j = 0
    · exact ⟨[0], ⟨by simp, by simp [hbase.1], by simp, by simp [hbase.2]⟩,
        by simp [costL, PF.isFin]⟩
    · rw [if_neg hbase] at hfin
      by_cases hcond : (0 : Fin n) ∈ s ∧ j ∈ s ∧ (s.erase j).Nonempty
      · rw [if_pos hcond, minSel] at hfin
        rcases selStep_fold_cases (fun i => decide (i ∈ s.erase j))
            (fun i => (DPf d k (s.erase j) i).add (d i j))
            (List.finRange n) (PF.inf, none) with h | ⟨i, _, hpi, heq, _⟩
        · rw [h] at hfin; simp [PF.isFin] at hfin
        · rw [heq] at hfin
          have himem : i ∈ s.erase j := by simpa using hpi
          obtain ⟨hfin1, hfin2⟩ := PF.isFin_of_add_isFin hfin
          have hcard2 : (s.erase j).card ≤ k := by
            have := Finset.card_erase_of_mem hcond.2.1
            have hpos := Finset.card_pos.mpr ⟨j, hcond.2.1⟩
            omega
          by_cases hi0 : i = 0
          · subst hi0
            have hj0 : j ≠ 0 := by
              intro hj
              subst hj
              rw [DPf_not_zero_mem d k _ 0 (Finset.not_mem_erase 0 s)] at hfin1
              simp [PF.isFin] at hfin1
            have hsingle : s.erase j = {0} := by
              by_contra hne
              rw [DPf_zero_col hd k _ hne] at hfin1
              simp [PF.isFin] at hfin1
            have hs : s = {0, j} := by
              have := Finset.insert_erase hcond.2.1
              rw [hsingle] at this
              rw [← this]
              ext y; simp [or_comm]
            refine ⟨[0, j], ⟨by simp [Ne.symm hj0], ?_, by simp, by simp⟩, ?_⟩
            · rw [hs]; ext y; simp
            · have : costL d [0, j] = d 0 j := by
                simp [costL, PF.add_zero]
              rw [this]; exact hfin2
          · have hj0 : j ≠ 0 := by
              intro hj
              subst hj
              exact hi0 (by simpa using
                (Finset.mem_singleton.mp (by
                  by_contra hne2
                  exact hne2 (by
                    have h00 : (0 : Fin n) ∉ s.erase 0 := Finset.not_mem_erase 0 s
                    rw [DPf_not_zero_mem d k _ i h00] at hfin1
                    simp [PF.isFin] at hfin1))))
            obtain ⟨q, hqp, hqc⟩ := ih (s.erase j) i hcard2 hfin1
            have hjq : j ∉ q := by
              intro hmem
              have : j ∈ s.erase j := by
                rw [← hqp.2.1]; exact List.mem_toFinset.mpr hmem
              exact (Finset.not_mem_erase j s) this
            have hqne : q ≠ [] := by
              intro h; rw [h] at hqp; simp [IsPath] at hqp
            refine ⟨q ++ [j], ⟨?_, ?_, ?_, ?_⟩, ?_⟩
            · rw [List.nodup_append]
              refine ⟨hqp.1, by simp, ?_⟩
              intro y hy1 hy2
              simp at hy2
              subst hy2
              exact hjq hy1
            · rw [← Finset.insert_erase hcond.2.1, ← hqp.2.1]
              ext y; simp [or_comm]
            · rw [List.head?_append_of_ne_nil _ hqne]
              exact hqp.2.2.1
            · rw [List.getLast?_concat]
            · rw [costL_append_last d q i j hqp.2.2.2]
              cases h1 : costL d q <;> rw [h1] at hqc <;>
                cases h2 : d i j <;> rw [h2] at hfin2 <;>
                simp [PF.isFin, PF.add] at hqc hfin2 ⊢
      · rw [if_neg hcond] at hfin
        simp [PF.isFin] at hfin

theorem hkWalk_ok {n : ℕ} [NeZero n] {d : Fin n → Fin n → PF}
    (hfin : ∀ i j, (d i j).isFin) (hd : ∀ i j, (d i j).isNN) :
    ∀ (fuel : ℕ) (s : Finset (Fin n)) (j : Fin n) (acc : List (Fin n)),
      s.card = fuel → (0 : Fin n) ∈ s → j ∈ s → j ≠ 0 →
      ∃ mids, hkWalk d fuel s (some j) acc = .ok (mids ++ acc) ∧
        mids.Nodup ∧ mids.toFinset = s.erase 0 ∧ mids.getLast? = some j := by
  intro fuel
  induction fuel with
  | zero =>
    intro s j acc hc h0 hj _
    rw [Finset.card_eq_zero] at hc
    subst hc
    simp at hj
  | succ k ih =>
    intro s j acc hc h0 hj hj0
    have hmem0 : (0 : Fin n) ∈ s.erase j := Finset.mem_erase.mpr ⟨Ne.symm hj0, h0⟩
    have hcond : (0 : Fin n) ∈ s ∧ j ∈ s ∧ (s.erase j).Nonempty :=
      ⟨h0, hj, ⟨0, hmem0⟩⟩
    have hcard2 : (s.erase j).card = k := by
      have := Finset.card_erase_of_mem hj
      omega
    rw [hkWalk, if_neg hj0, if_pos hcond]
    -- the DP value at `(s, j)` is finite, so the recorded parent is a real index
    have hdp : (DPf d (k + 1) s j).isFin :=
      DPf_isFin hfin hd (k + 1) s j (le_of_eq hc) h0 hj hj0
    rw [DPf, if_neg (by rintro ⟨_, h⟩; exact hj0 h), if_pos hcond, minSel] at hdp
    rcases selStep_fold_cases (fun i => decide (i ∈ s.erase j))
        (fun i => (DPf d k (s.erase j) i).add (d i j))
        (List.finRange n) (PF.inf, none) with h | ⟨i, _, hpi, heq, _⟩
    · rw [h] at hdp; simp [PF.isFin] at hdp
    · have hpar : parentIdx d k s j = some i := by
        rw [parentIdx, minSel, heq]
      have hval : (DPf d k (s.erase j) i).isFin := by
        rw [heq] at hdp
        exact (PF.isFin_of_add_isFin hdp).1
      have himem : i ∈ s.erase j := by simpa using hpi
      rw [hpar]
      by_cases hi0 : i = 0
      · subst hi0
        have hsingle : s.erase j = {0} := by
          by_contra hne
          rw [DPf_zero_col hd k _ hne] at hval
          simp [PF.isFin] at hval
        have hk1 : k = 1 := by rw [hsingle] at hcard2; simpa using hcard2.symm
        subst hk1
        rw [hkWalk, if_pos rfl]
        refine ⟨[j], rfl, by simp, ?_, by simp⟩
        have hins := Finset.insert_erase hj
        rw [hsingle] at hins
        have hs : s = {0, j} := by
          rw [← hins]; ext y; simp; tauto
        rw [hs]
        ext y
        constructor
        · intro hy
          simp at hy
          rw [hy]
          exact Finset.mem_erase.mpr ⟨hj0, by simp⟩
        · intro hy
          rcases Finset.mem_erase.mp hy with ⟨hne, hy2⟩
          simp at hy2 ⊢
          tauto
      · obtain ⟨mids1, hw, hnd1, hts1, hlast1⟩ :=
          ih (s.erase j) i (j :: acc) hcard2 hmem0 himem hi0
        refine ⟨mids1 ++ [j], ?_, ?_, ?_, by rw [List.getLast?_concat]⟩
        · rw [hw]; simp
        · rw [List.nodup_append]
          refine ⟨hnd1, by simp, ?_⟩
          intro y hy1 hy2
          simp at hy2
          have hjmem : j ∈ (s.erase j).erase 0 := by
            rw [← hts1]
            exact List.mem_toFinset.mpr (hy2 ▸ hy1)
          exact (Finset.not_mem_erase j s) (Finset.mem_of_mem_erase hjmem)
        · rw [List.toFinset_append]
          simp only [List.toFinset_cons, List.toFinset_nil, insert_emptyc_eq]
          rw [hts1]
          ext y
          constructor
          · intro hy
            rcases Finset.mem_union.mp hy with hy1 | hy1
            · rcases Finset.mem_erase.mp hy1 with ⟨hne0, hy2⟩
              exact Finset.mem_erase.mpr ⟨hne0, Finset.mem_of_mem_erase hy2⟩
            · rw [Finset.mem_singleton.mp hy1]
              exact Finset.mem_erase.mpr ⟨hj0, hj⟩
          · intro hy
            rcases Finset.mem_erase.mp hy with ⟨hne0, hys⟩
            by_cases hyj : y = j
            · exact Finset.mem_union.mpr (Or.inr (Finset.mem_singleton.mpr hyj))
            · exact Finset.mem_union.mpr (Or.inl (Finset.mem_erase.mpr
                ⟨hne0, Finset.mem_erase.mpr ⟨hyj, hys⟩⟩))

/-! ## Closed tours, rotation, and permutations -/

theorem PF.add_rot4 (a x b y : PF) :
    a.add (x.add (b.add y)) = b.add (y.add (a.add x)) := by
  rw [← PF.add_assoc a x (b.add y), ← PF.add_assoc b y (a.add x),
    PF.add_comm (a.add x) (b.add y)]

theorem closedTour_rotate {n : ℕ} [NeZero n] (d : Fin n → Fin n → PF)
    {t : List (Fin n)} (ht : IsClosedTour t) :
    ∃ q : List (Fin n), ((0 : Fin n) :: q).Nodup ∧
      ((0 : Fin n) :: q).toFinset = Finset.univ ∧
      costL d (((0 : Fin n) :: q) ++ [0]) = costL d t := by
  obtain ⟨y, mids, rfl, hnd, hts⟩ := ht
  by_cases hy : y = 0
  · subst hy
    exact ⟨mids, hnd, hts, rfl⟩
  · have h0m : (0 : Fin n) ∈ y :: mids := by
      rw [← List.mem_toFinset, hts]; exact Finset.mem_univ 0
    have h0mids : (0 : Fin n) ∈ mids := by
      rcases List.mem_cons.mp h0m with h | h
      · exact absurd h.symm hy
      · exact h
    obtain ⟨l1, l2, hsplit⟩ := List.append_of_mem h0mids
    subst hsplit
    refine ⟨l2 ++ y :: l1, ?_, ?_, ?_⟩
    · have hperm : ((0 : Fin n) :: (l2 ++ y :: l1)).Perm (y :: (l1 ++ 0 :: l2)) := by
        have h1 : ((0 : Fin n) :: (l2 ++ y :: l1)).Perm ((y :: l1) ++ 0 :: l2) := by
          refine List.Perm.trans
            (show ((0 : Fin n) :: (l2 ++ y :: l1)).Perm
              ((0 :: l2) ++ (y :: l1)) by simp) ?_
          exact List.perm_append_comm
        refine h1.trans ?_
        simp
      exact hperm.nodup_iff.mpr hnd
    · have hperm : ((0 : Fin n) :: (l2 ++ y :: l1)).Perm (y :: (l1 ++ 0 :: l2)) := by
        have h1 : ((0 : Fin n) :: (l2 ++ y :: l1)).Perm ((y :: l1) ++ 0 :: l2) := by
          refine List.Perm.trans
            (show ((0 : Fin n) :: (l2 ++ y :: l1)).Perm
              ((0 :: l2) ++ (y :: l1)) by simp) ?_
          exact List.perm_append_comm
        refine h1.trans ?_
        simp
      rw [← hts]
      exact List.toFinset_eq_of_perm _ _ hperm
    · -- cost is invariant under rotating the closed tour to the 0 anchor
      obtain ⟨a0, ha0⟩ : ∃ a0, (y :: l1).getLast? = some a0 :=
        ⟨(y :: l1).getLast (by simp), List.getLast?_eq_getLast _ (by simp)⟩
      obtain ⟨b0, hb0⟩ : ∃ b0, ((0 : Fin n) :: l2).getLast? = some b0 :=
        ⟨((0 : Fin n) :: l2).getLast (by simp), List.getLast?_eq_getLast _ (by simp)⟩
      have hsplitL : y :: (l1 ++ 0 :: l2) ++ [y]
          = (y :: l1) ++ ((0 :: l2) ++ [y]) := by simp
      have hsplitR : ((0 : Fin n) :: (l2 ++ y :: l1)) ++ [0]
          = ((0 : Fin n) :: l2) ++ ((y :: l1) ++ [0]) := by simp
      rw [hsplitL, hsplitR]
      rw [costL_append d (y :: l1) ((0 :: l2) ++ [y]) a0 0 ha0
        (by rw [List.head?_append_of_ne_nil _ (by simp)]; rfl)]
      rw [costL_append d ((0 : Fin n) :: l2) ((y :: l1) ++ [0]) b0 y hb0
        (by rw [List.head?_append_of_ne_nil _ (by simp)]; rfl)]
      rw [costL_append_last d ((0 : Fin n) :: l2) b0 y hb0]
      rw [costL_append_last d (y :: l1) a0 0 ha0]
      exact (PF.add_rot4 _ _ _ _).symm

theorem exists_perm_of_nodup_univ {n : ℕ} [NeZero n] {p : List (Fin n)}
    (hnd : p.Nodup) (hts : p.toFinset = Finset.univ) :
    ∃ σ : Equiv.Perm (Fin n), (List.finRange n).map σ = p := by
  have hlen : p.length = n := by
    have h1 : p.toFinset.card = p.length := List.toFinset_card_of_nodup hnd
    rw [hts] at h1
    simpa using h1.symm
  have hinj : Function.Injective p.get := List.nodup_iff_injective_get.mp hnd
  let f : Fin n → Fin n := fun k => p.get (Fin.cast hlen.symm k)
  have hfinj : Function.Injective f := by
    intro a b hab
    have := hinj hab
    simpa [Fin.ext_iff] using this
  have hbij : Function.Bijective f := (Finite.injective_iff_bijective).mp hfinj
  refine ⟨Equiv.ofBijective f hbij, ?_⟩
  apply List.ext_get
  · simp [hlen]
  · intro k h1 h2
    simp [Equiv.ofBijective, f]

theorem PF.isFin_of_ne {x : PF} (h1 : x ≠ PF.inf) (h2 : x ≠ PF.ninf)
    (h3 : x ≠ PF.nan) : x.isFin := by
  cases x <;> simp [PF.isFin] at *

/-- C10: on a 1-by-1 distance matrix the final minimisation of
`tsp_held_karp` ranges over the empty `range(1, 1)`, `best_index` stays `-1`,
and the reconstruction raises `KeyError` on `parent[(full_mask, -1)]` instead
of returning the trivial cycle. -/
theorem heldKarp_singleton_raises (d : Fin 1 → Fin 1 → PF)
    (ids : Fin 1 → String) : tspHeldKarp d ids = .exn .keyError := rfl

/-- C8 (counterexample): on the disconnected matrix `[[0, inf], [inf, 0]]`
(no closed tour has finite cost) `tsp_held_karp` raises `KeyError` instead of
returning a degenerate tour with length `+inf`. -/
theorem heldKarp_disconnected_counterexample :
    (∀ i j : Fin 2, (hkDisc i j).isNN) ∧
    (∀ σ : Equiv.Perm (Fin 2), σ 0 = 0 → cycleCost hkDisc σ = PF.inf) ∧
    tspHeldKarp hkDisc namesAB = .exn .keyError ∧
    ∀ r : List String × PF, tspHeldKarp hkDisc namesAB ≠ .ok r := by
  refine ⟨by decide, by decide, by decide, ?_⟩
  intro r h
  rw [show tspHeldKarp hkDisc namesAB = .exn .keyError from by decide] at h
  exact PyRes.noConfusion h

/-- C8 (amended): for every matrix with `>= 0 or inf` entries on `n >= 2`
stops that admits no finite-cost closed tour through all stops,
`tsp_held_karp` raises a `KeyError` (reading `parent[(full_mask, -1)]`)
instead of returning normally with a `+inf` length. -/
theorem heldKarp_disconnected_raises {n : ℕ} [NeZero n]
    (d : Fin n → Fin n → PF) (ids : Fin n → String) (hn : 2 ≤ n)
    (hd : ∀ i j, (d i j).isNN)
    (hdis : ∀ σ : Equiv.Perm (Fin n), σ 0 = 0 → cycleCost d σ = PF.inf) :
    tspHeldKarp d ids = .exn .keyError := by
  have hbest : ((List.finRange n).foldl
      (selStep (fun i => decide (i ≠ 0))
        (fun i => (DPf d n Finset.univ i).add (d i 0)))
      (PF.inf, (none : Option (Fin n)))).2 = none := by
    rcases selStep_fold_cases (fun i => decide (i ≠ 0))
        (fun i => (DPf d n Finset.univ i).add (d i 0))
        (List.finRange n) (PF.inf, none) with h | ⟨i, _, hpi, heq, y, hy⟩
    · rw [h]
    · exfalso
      have hNN : ((DPf d n Finset.univ i).add (d i 0)).isNN :=
        PF.isNN_add (DPf_isNN hd n _ i) (hd i 0)
      obtain ⟨hne1, hne3⟩ := PF.isFin_of_lt (PF.isNN_ne_ninf hNN) hy
      have hfin : ((DPf d n Finset.univ i).add (d i 0)).isFin :=
        PF.isFin_of_ne hne1 (PF.isNN_ne_ninf hNN) hne3
      obtain ⟨hf1, hf2⟩ := PF.isFin_of_add_isFin hfin
      obtain ⟨p, hpath, hpc⟩ := DPf_finite_path hd n Finset.univ i
        (le_of_eq (Finset.card_univ.trans (Fintype.card_fin n))) hf1
      obtain ⟨hnd2, hts2, hh2, hl2⟩ := hpath
      obtain ⟨σ, hσ⟩ := exists_perm_of_nodup_univ hnd2 hts2
      obtain ⟨m, hm⟩ := Nat.exists_eq_succ_of_ne_zero (NeZero.ne n)
      have hp0 : p.head? = some (σ 0) := by
        rw [← hσ, List.head?_map]
        subst hm
        simp [List.finRange_succ]
      have hσ0 : σ 0 = 0 := by
        rw [hh2] at hp0
        exact (Option.some.inj hp0).symm
      have hcyc : cycleCost d σ = costL d (p ++ [0]) := by
        rw [cycleCost, permTour, hσ, hσ0]
      have hfin2 : (costL d (p ++ [0])).isFin := by
        rw [costL_append_last d p i 0 hl2]
        cases h1 : costL d p <;> rw [h1] at hpc <;>
          cases h2 : d i 0 <;> rw [h2] at hf2 <;>
          simp [PF.isFin, PF.add] at hpc hf2 ⊢
      rw [hdis σ hσ0] at hcyc
      rw [← hcyc] at hfin2
      simp [PF.isFin] at hfin2
  obtain ⟨m, rfl⟩ := Nat.exists_eq_succ_of_ne_zero (NeZero.ne n)
  simp only [tspHeldKarp]
  rw [hbest]
  rfl

/-! ## Nearest-neighbour lemmas -/

theorem nnLoop_ok {n : ℕ} {d : Fin n → Fin n → PF} :
    ∀ (k : ℕ) (visited : Fin n → Bool) (current : Fin n)
      (touridx : List (Fin n)) (total : PF)
      (res : (Fin n → Bool) × Fin n × List (Fin n) × PF),
      nnLoop d k visited current touridx total = .ok res →
      (∀ i, visited i = true ↔ i ∈ touridx) →
      touridx.getLast? = some current →
      touridx.Nodup →
      total = costL d touridx →
      touridx.length + k = n →
      res.2.2.1.getLast? = some res.2.1 ∧ res.2.2.1.Nodup ∧
      res.2.2.2 = costL d res.2.2.1 ∧ res.2.2.1.length = n ∧
      ∃ pre, res.2.2.1 = touridx ++ pre := by
  intro k
  induction k with
  | zero =>
    intro visited current touridx total res hok hv hlast hnd htot hlen
    rw [nnLoop] at hok
    injection hok with hok
    subst hok
    exact ⟨hlast, hnd, htot, by simpa using hlen, [], by simp⟩
  | succ k ih =>
    intro visited current touridx total res hok hv hlast hnd htot hlen
    rw [nnLoop] at hok
    set row : Fin n → PF := fun i => if visited i then PF.inf else d current i with hrow
    set nxt := argminRow row ⟨0, current.pos⟩ with hnxt
    by_cases hinf : row nxt = PF.inf ∨ row nxt = PF.ninf
    · rw [if_pos hinf] at hok
      exact absurd hok (by simp)
    · rw [if_neg hinf] at hok
      have hnv : visited nxt = false := by
        by_contra hvt
        rw [Bool.not_eq_false] at hvt
        exact hinf (Or.inl (by rw [hrow]; simp [hvt]))
      have hnmem : nxt ∉ touridx := fun hmem => by
        rw [← hv nxt] at hmem
        rw [hnv] at hmem
        exact Bool.false_ne_true hmem
      have hrownxt : row nxt = d current nxt := by
        rw [hrow]; simp [hnv]
      obtain ⟨h1, h2, h3, h4, pre, h5⟩ := ih
        (fun i => if i = nxt then true else visited i) nxt (touridx ++ [nxt])
        (total.add (row nxt)) res hok
        (by
          intro i
          by_cases hieq : i = nxt
          · subst hieq; simp
          · simp [hieq, hv i])
        (by rw [List.getLast?_concat])
        (by
          rw [List.nodup_append]
          refine ⟨hnd, by simp, ?_⟩
          intro y hy1 hy2
          simp at hy2
          rw [hy2] at hy1
          exact hnmem hy1)
        (by
          rw [htot, hrownxt, costL_append_last d touridx current nxt hlast])
        (by simpa using by omega)
      exact ⟨h1, h2, h3, h4, [nxt] ++ pre, by rw [h5, List.append_assoc]⟩

theorem tspNN_core {n : ℕ} {d : Fin n → Fin n → PF} {names : Fin n → String}
    {n2i : String → Option (Fin n)} {start : String} {rts : Bool}
    {tour : List String} {len : PF}
    (hok : tspNN d names n2i start rts = .ok (tour, len)) :
    ∃ si core, n2i start = some si ∧
      core.Perm (List.finRange n) ∧ core.head? = some si ∧
      tour = (if rts then core ++ [si] else core).map names ∧
      len = costL d (if rts then core ++ [si] else core) := by
  rw [tspNN] at hok
  rcases hstart : n2i start with _ | si
  · rw [hstart] at hok; exact absurd hok (by simp)
  · rw [hstart] at hok
    dsimp only at hok
    rcases hloop : nnLoop d (n - 1) (fun i => decide (i = si)) si [si] (PF.fin 0)
      with res | e | e
    rotate_left
    · rw [hloop] at hok; exact absurd hok (by simp)
    · rw [hloop] at hok; exact absurd hok (by simp)
    rw [hloop] at hok
    obtain ⟨hlast, hnd, htot, hlen, pre, hpre⟩ := nnLoop_ok (n - 1)
      (fun i => decide (i = si)) si [si] (PF.fin 0) res hloop
      (by intro i; simp)
      (by simp)
      (by simp)
      (by simp [costL])
      (by
        have : 0 < n := si.pos
        simp
        omega)
    obtain ⟨visited2, cur, tidx, tot⟩ := res
    simp only at hlast hnd htot hlen hpre
    have hcover : tidx.toFinset = Finset.univ := by
      apply Finset.eq_univ_of_card
      rw [List.toFinset_card_of_nodup hnd, hlen]
      simp
    have hperm : tidx.Perm (List.finRange n) :=
      List.perm_of_nodup_nodup_toFinset_eq hnd (List.nodup_finRange n)
        (by rw [hcover]; ext i; simp [List.mem_finRange])
    have hhead : tidx.head? = some si := by
      rw [hpre]
      simp
    cases rts with
    | false =>
      simp only [Bool.false_eq_true, if_false] at hok ⊢
      simp only [PyRes.ok.injEq, Prod.mk.injEq] at hok
      obtain ⟨h1, h2⟩ := hok
      subst h1
      subst h2
      exact ⟨si, tidx, rfl, hperm, hhead, rfl, htot⟩
    | true =>
      simp only [if_true] at hok ⊢
      by_cases hcond : d cur si = PF.inf ∨ d cur si = PF.ninf
      · rw [if_pos hcond] at hok
        simp at hok
      · rw [if_neg hcond] at hok
        simp only [PyRes.ok.injEq, Prod.mk.injEq] at hok
        obtain ⟨h1, h2⟩ := hok
        subst h1
        subst h2
        refine ⟨si, tidx, rfl, hperm, hhead, rfl, ?_⟩
        rw [htot, costL_append_last d tidx cur si hlast]

/-- C6: whenever `tsp_nn` returns normally on a matrix obeying the documented
`>= 0 or inf` precondition with an index mapping that matches the stops list
at `start`, the returned tour is (the image under the stops list of) a
permutation `core` of all stop indexes starting at the start index, with the
start repeated at the end exactly when `return_to_start` is set, and the
returned length is exactly the sum of the matrix entries over consecutive
pairs of the returned tour. -/
theorem tsp_nn_returns_permutation {n : ℕ} (d : Fin n → Fin n → PF)
    (names : Fin n → String) (n2i : String → Option (Fin n)) (start : String)
    (rts : Bool) (tour : List String) (len : PF)
    (hd : ∀ i j, (d i j).isNN)
    (hmatch : ∀ si, n2i start = some si → names si = start)
    (hok : tspNN d names n2i start rts = .ok (tour, len)) :
    ∃ si core, n2i start = some si ∧ names si = start ∧
      core.Perm (List.finRange n) ∧ core.head? = some si ∧
      tour = (if rts then core ++ [si] else core).map names ∧
      tour.head? = some start ∧
      (rts = true → tour.getLast? = some start) ∧
      len = costL d (if rts then core ++ [si] else core) := by
  obtain ⟨si, core, h1, h2, h3, h4, h5⟩ := tspNN_core hok
  have hname := hmatch si h1
  have hcne : core ≠ [] := by
    intro h; rw [h] at h3; exact Option.noConfusion h3
  refine ⟨si, core, h1, hname, h2, h3, h4, ?_, ?_, h5⟩
  · rw [h4, List.head?_map]
    cases rts with
    | false => rw [if_neg (by simp), h3]; simp [hname]
    | true =>
      rw [if_pos rfl, List.head?_append_of_ne_nil _ hcne, h3]
      simp [hname]
  · intro hrts
    subst hrts
    rw [h4, if_pos rfl, List.getLast?_map, List.getLast?_concat]
    simp [hname]

/-- Witness for C6 at the chain matrix of the reference tests. -/
theorem tsp_nn_returns_permutation_witness :
    ∃ si core, idxAB "A" = some si ∧ namesAB si = "A" ∧
      core.Perm (List.finRange 2) ∧ core.head? = some si ∧
      ["A", "B"] = (if false then core ++ [si] else core).map namesAB ∧
      (["A", "B"] : List String).head? = some "A" ∧
      (false = true → (["A", "B"] : List String).getLast? = some "A") ∧
      PF.fin 3 = costL hkM2 (if false then core ++ [si] else core) :=
  tsp_nn_returns_permutation hkM2 namesAB idxAB "A" false ["A", "B"] (PF.fin 3)
    (by decide) (by decide) (by decide)

/-- C1: on every `n >= 2` matrix with finite non-negative entries,
`tsp_held_karp` returns normally with a closed cycle that starts and ends at
index 0 and visits every other stop exactly once, and the returned length is
a lower bound on the length of every closed tour over the same stops — in
particular on the length returned by `tsp_nn` with `return_to_start` (whose
returned length equals its tour's length). -/
theorem held_karp_closed_cycle_and_optimal {n : ℕ} [NeZero n]
    (d : Fin n → Fin n → PF) (ids : Fin n → String) (hn : 2 ≤ n)
    (hd : ∀ i j, (d i j).isFin ∧ (d i j).isNN) :
    ∃ mids len,
      tspHeldKarp d ids = .ok ((((0 : Fin n) :: mids) ++ [0]).map ids, len) ∧
      ((0 : Fin n) :: mids).Nodup ∧
      ((0 : Fin n) :: mids).toFinset = Finset.univ ∧
      (∀ t : List (Fin n), IsClosedTour t → len.le (costL d t) = true) ∧
      (∀ (names : Fin n → String) (n2i : String → Option (Fin n))
        (start : String) (tour2 : List String) (len2 : PF),
        tspNN d names n2i start true = .ok (tour2, len2) →
        len.le len2 = true) := by
  have hfin : ∀ i j, (d i j).isFin := fun i j => (hd i j).1
  have hNN : ∀ i j, (d i j).isNN := fun i j => (hd i j).2
  have hcardu : (Finset.univ : Finset (Fin n)).card = n := by simp
  set p : Fin n → Bool := fun i => decide (i ≠ 0) with hp
  set f : Fin n → PF := fun i => (DPf d n Finset.univ i).add (d i 0) with hf
  have hclean : ∀ i ∈ List.finRange n, p i = true →
      f i ≠ PF.nan ∧ f i ≠ PF.ninf := by
    intro i _ _
    have := PF.isNN_add (DPf_isNN hNN n Finset.univ i) (hNN i 0)
    exact ⟨PF.isNN_ne_nan this, PF.isNN_ne_ninf this⟩
  have hone : (⟨1, by omega⟩ : Fin n) ≠ 0 := by
    intro h
    have := congrArg Fin.val h
    simp at this
  have hex : ∃ i ∈ List.finRange n, p i = true ∧ (f i).isFin := by
    refine ⟨⟨1, by omega⟩, List.mem_finRange _, by simp [hp, hone], ?_⟩
    have h1 := DPf_isFin hfin hNN n Finset.univ ⟨1, by omega⟩
      (le_of_eq hcardu) (Finset.mem_univ _) (Finset.mem_univ _) hone
    have h2 := hfin (⟨1, by omega⟩ : Fin n) 0
    rw [hf]
    cases ha : DPf d n Finset.univ ⟨1, by omega⟩ <;> rw [ha] at h1 <;>
      cases hb : d ⟨1, by omega⟩ 0 <;> rw [hb] at h2 <;>
      simp [PF.isFin, PF.add, ha, hb] at h1 h2 ⊢
  have hbfin : ((List.finRange n).foldl (selStep p f) (PF.inf, none)).1.isFin :=
    selStep_fold_fin p f (List.finRange n) (PF.inf, none) hclean (Or.inr rfl) hex
  rcases selStep_fold_cases p f (List.finRange n) (PF.inf, none)
    with hcase | ⟨b, _, hpb, hcase, _⟩
  · rw [hcase] at hbfin; simp [PF.isFin] at hbfin
  · have hb0 : b ≠ 0 := by simpa [hp] using hpb
    obtain ⟨mids, hw, hwnd, hwts, _⟩ := hkWalk_ok hfin hNN n Finset.univ b []
      hcardu (Finset.mem_univ _) (Finset.mem_univ _) hb0
    rw [List.append_nil] at hw
    have h0mids : (0 : Fin n) ∉ mids := by
      intro h
      have : (0 : Fin n) ∈ Finset.univ.erase 0 := by
        rw [← hwts]; exact List.mem_toFinset.mpr h
      exact (Finset.not_mem_erase _ _) this
    have hndfull : ((0 : Fin n) :: mids).Nodup := List.nodup_cons.mpr ⟨h0mids, hwnd⟩
    have htsfull : ((0 : Fin n) :: mids).toFinset = Finset.univ := by
      simp only [List.toFinset_cons, hwts]
      exact Finset.insert_erase (Finset.mem_univ _)
    set len := ((List.finRange n).foldl (selStep p f) (PF.inf, none)).1 with hlen
    have hbound : ∀ t : List (Fin n), IsClosedTour t →
        len.le (costL d t) = true := by
      intro t ht
      obtain ⟨q, hqnd, hqts, hqc⟩ := closedTour_rotate d ht
      have hqne : q ≠ [] := by
        intro h
        subst h
        have : (Finset.univ : Finset (Fin n)).card = 1 := by
          rw [← hqts]; simp
        omega
      obtain ⟨i, hql⟩ : ∃ i, q.getLast? = some i :=
        ⟨q.getLast hqne, List.getLast?_eq_getLast _ hqne⟩
      have hqlast : ((0 : Fin n) :: q).getLast? = some i := by
        cases q with
        | nil => exact absurd rfl hqne
        | cons q0 qt => rw [List.getLast?_cons_cons]; exact hql
      have hiq : i ∈ q := mem_of_getLastEq hql
      have hi0 : i ≠ 0 := by
        intro h
        subst h
        exact (List.nodup_cons.mp hqnd).1 hiq
      have hpath : IsPath Finset.univ i ((0 : Fin n) :: q) :=
        ⟨hqnd, hqts, rfl, hqlast⟩
      obtain ⟨_, _, _, hball⟩ := selStep_fold_le p f (List.finRange n)
        (PF.inf, none) hclean (by simp) (by simp)
      have hb1 : len.le (f i) = true :=
        hball i (List.mem_finRange i) (by simp [hp, hi0])
      have hb2 : (f i).le ((costL d ((0 : Fin n) :: q)).add (d i 0)) = true := by
        rw [hf]
        exact PF.add_le_add_right
          (PF.isNN_ne_ninf (DPf_isNN hNN n Finset.univ i)) (hNN i 0)
          (DPf_le_costL hNN ((0 : Fin n) :: q) Finset.univ i n
            (le_of_eq hcardu) hpath)
      have hb3 : costL d (((0 : Fin n) :: q) ++ [0])
          = (costL d ((0 : Fin n) :: q)).add (d i 0) :=
        costL_append_last d _ i 0 hqlast
      rw [← hqc, hb3]
      exact PF.le_trans hb1 hb2
    refine ⟨mids, len, ?_, hndfull, htsfull, hbound, ?_⟩
    · simp only [tspHeldKarp]
      have hsnd : ((List.finRange n).foldl (selStep p f) (PF.inf, none)).2
          = some b := by rw [hcase]
      rw [hp, hf] at hsnd
      rw [hsnd, hw]
    · intro names n2i start tour2 len2 hok2
      obtain ⟨si, core, _, hperm, hhead, _, hlen2⟩ := tspNN_core hok2
      rw [if_pos rfl] at hlen2
      have hcnd : core.Nodup := hperm.nodup_iff.mpr (List.nodup_finRange n)
      have hcts : core.toFinset = Finset.univ := by
        rw [List.toFinset_eq_of_perm _ _ hperm]
        ext i
        simp [List.mem_finRange]
      obtain ⟨rest, hrest⟩ : ∃ rest, core = si :: rest := by
        cases core with
        | nil => exact absurd hhead (by simp)
        | cons c0 ct =>
          refine ⟨ct, ?_⟩
          simp at hhead
          rw [hhead]
      have hclosed : IsClosedTour (core ++ [si]) := by
        refine ⟨si, rest, ?_, ?_, ?_⟩
        · rw [hrest]
        · rw [← hrest]; exact hcnd
        · rw [← hrest]; exact hcts
      rw [hlen2]
      exact hbound (core ++ [si]) hclosed

/-- Witness for C1 at the 2-stop matrix `[[0, 3], [2, 0]]`. -/
theorem held_karp_closed_cycle_and_optimal_witness :
    ∃ mids len,
      tspHeldKarp hkM2 namesAB = .ok ((((0 : Fin 2) :: mids) ++ [0]).map namesAB, len) ∧
      ((0 : Fin 2) :: mids).Nodup ∧
      ((0 : Fin 2) :: mids).toFinset = Finset.univ ∧
      (∀ t : List (Fin 2), IsClosedTour t → len.le (costL hkM2 t) = true) ∧
      (∀ (names : Fin 2 → String) (n2i : String → Option (Fin 2))
        (start : String) (tour2 : List String) (len2 : PF),
        tspNN hkM2 names n2i start true = .ok (tour2, len2) →
        len.le len2 = true) :=
  held_karp_closed_cycle_and_optimal hkM2 namesAB (by decide) (by decide)

/-- Witness for C8: the amended theorem applied to the concrete disconnected
matrix `[[0, inf], [inf, 0]]`. -/
theorem heldKarp_disconnected_raises_witness :
    tspHeldKarp hkDisc namesAB = .exn .keyError :=
  heldKarp_disconnected_raises hkDisc namesAB (by decide) (by decide) (by decide)

/-! ## 2-opt lemmas -/

theorem costIds_defined {m : ℕ} (d : Fin m → Fin m → PF)
    (idx : String → Option (Fin m)) :
    ∀ (t : List String) (v : PF), costIds d idx t = some v →
      2 ≤ t.length → ∀ x ∈ t, (idx x).isSome := by
  intro t
  induction t with
  | nil => intro v _ h; simp at h
  | cons x t ih =>
    intro v hv hlen z hz
    cases t with
    | nil => simp at hlen
    | cons y r =>
      rw [costIds] at hv
      rcases hx : idx x with _ | ix
      · rw [hx] at hv; simp at hv
      rcases hy : idx y with _ | iy
      · rw [hx, hy] at hv; simp at hv
      rcases hr : costIds d idx (y :: r) with _ | vr
      · rw [hx, hy, hr] at hv; simp at hv
      rcases List.mem_cons.mp hz with rfl | hz2
      · rw [hx]; rfl
      · cases r with
        | nil =>
          have : z = y := by simpa using hz2
          rw [this, hy]; rfl
        | cons r0 rt =>
          exact ih vr hr (by simp) z hz2

theorem costIds_eq_costL {m : ℕ} (d : Fin m → Fin m → PF)
    (idx : String → Option (Fin m)) :
    ∀ (t : List String) (v : PF), costIds d idx t = some v →
      v = costL (wOf d idx) t := by
  intro t
  induction t with
  | nil =>
    intro v hv
    have h0 : costIds d idx ([] : List String) = some (PF.fin 0) := rfl
    rw [h0] at hv
    rw [← Option.some.inj hv]
    rfl
  | cons x t ih =>
    intro v hv
    cases t with
    | nil =>
      have h0 : costIds d idx [x] = some (PF.fin 0) := rfl
      rw [h0] at hv
      rw [← Option.some.inj hv]
      rfl
    | cons y r =>
      rw [costIds] at hv
      rcases hx : idx x with _ | ix
      · rw [hx] at hv; simp at hv
      rcases hy : idx y with _ | iy
      · rw [hx, hy] at hv; simp at hv
      rcases hr : costIds d idx (y :: r) with _ | vr
      · rw [hx, hy, hr] at hv; simp at hv
      rw [hx, hy, hr] at hv
      simp at hv
      rw [← hv, costL, ih vr hr, wOf, hx, hy]

theorem costIds_of_defined {m : ℕ} (d : Fin m → Fin m → PF)
    (idx : String → Option (Fin m)) :
    ∀ (t : List String), (∀ x ∈ t, (idx x).isSome) →
      costIds d idx t = some (costL (wOf d idx) t) := by
  intro t
  induction t with
  | nil => intro _; rfl
  | cons x t ih =>
    intro hdef
    cases t with
    | nil => rfl
    | cons y r =>
      rw [costIds]
      obtain ⟨ix, hx⟩ := Option.isSome_iff_exists.mp (hdef x (by simp))
      obtain ⟨iy, hy⟩ := Option.isSome_iff_exists.mp (hdef y (by simp))
      rw [hx, hy, ih (fun z hz => hdef z (by simp [hz]))]
      rw [costL, wOf, hx, hy]

theorem costL_reverse {α : Type} (w : α → α → PF)
    (hsym : ∀ x y, w x y = w y x) :
    ∀ t : List α, costL w t.reverse = costL w t := by
  intro t
  induction t with
  | nil => rfl
  | cons x t ih =>
    cases ht : t with
    | nil => rfl
    | cons y r =>
      rw [← ht]
      have htne : t ≠ [] := by rw [ht]; simp
      have hrevne : t.reverse ≠ [] := by
        simpa using htne
      have hrl : t.reverse.getLast? = some y := by
        rw [List.getLast?_reverse, ht]; rfl
      have hstep : (x :: t).reverse = t.reverse ++ [x] := by
        simp
      rw [hstep, costL_append_last w t.reverse y x hrl, ih, ht, costL,
        hsym y x, PF.add_comm]

theorem costL_swap_decomp {α : Type} (w : α → α → PF)
    (hsym : ∀ x y, w x y = w y x) (P M S : List α) (aP bM cM dS : α)
    (hP : P.getLast? = some aP) (hMh : M.head? = some bM)
    (hMl : M.getLast? = some cM) (hS : S.head? = some dS) :
    costL w (P ++ M ++ S)
      = (costL w P).add ((w aP bM).add ((costL w M).add
        ((w cM dS).add (costL w S)))) ∧
    costL w (P ++ M.reverse ++ S)
      = (costL w P).add ((w aP cM).add ((costL w M).add
        ((w bM dS).add (costL w S)))) := by
  have hMne : M ≠ [] := by intro h; rw [h] at hMh; exact Option.noConfusion hMh
  constructor
  · rw [List.append_assoc,
      costL_append w P (M ++ S) aP bM hP
        (by rw [List.head?_append_of_ne_nil _ hMne]; exact hMh),
      costL_append w M S cM dS hMl hS]
  · have hrevne : M.reverse ≠ [] := by simpa using hMne
    rw [List.append_assoc,
      costL_append w P (M.reverse ++ S) aP cM hP
        (by rw [List.head?_append_of_ne_nil _ hrevne, List.head?_reverse]
            exact hMl),
      costL_append w M.reverse S bM dS
        (by rw [List.getLast?_reverse]; exact hMh) hS,
      costL_reverse w hsym M]

theorem scanJ_some_spec {m : ℕ} (d : Fin m → Fin m → PF)
    (idx : String → Option (Fin m)) (best : List String) (cyc : Bool)
    (n i : ℕ) (a b : String) (ia ib : Fin m) :
    ∀ (cnt j : ℕ) (r : ℕ × ℕ × PF),
      cnt + j = n - 1 →
      scanJ d idx best cyc n i a b ia ib cnt j = .ok (some r) →
      ∃ jj ic idd,
        r = (i, jj, ((d ia ic).add (d ib idd)).sub ((d ia ib).add (d ic idd))) ∧
        j ≤ jj ∧ jj + 1 ≤ n - 1 ∧
        idx (nth best jj) = some ic ∧
        idx (nth best (jj + 1)) = some idd ∧
        ((d ia ic).add (d ib idd)).lt ((d ia ib).add (d ic idd)) = true := by
  intro cnt
  induction cnt with
  | zero =>
    intro j r _ h
    rw [scanJ] at h
    simp at h
  | succ cnt ih =>
    intro j r hinv h
    rw [scanJ] at h
    have hmod : (j + 1) % n = j + 1 := Nat.mod_eq_of_lt (by omega)
    split at h
    next ic idd heqc heqd =>
      have hd3 : idx (nth best (j + 1)) = some idd := by
        rw [← heqd]
        cases cyc <;> simp [hmod]
      rw [show (if cyc then nth best ((j + 1) % n) else nth best (j + 1))
          = nth best (j + 1) from by cases cyc <;> simp [hmod]] at h
      by_cases hskip : a = nth best j ∨ b = nth best (j + 1)
      · rw [if_pos hskip] at h
        obtain ⟨jj, ic2, idd2, hr, hle, hrest⟩ := ih (j + 1) r (by omega) h
        exact ⟨jj, ic2, idd2, hr, by omega, hrest⟩
      · rw [if_neg hskip] at h
        dsimp only at h
        by_cases himp : ((d ia ic).add (d ib idd)).lt
            ((d ia ib).add (d ic idd)) = true
        · rw [if_pos himp] at h
          simp at h
          exact ⟨j, ic, idd, h.symm, le_refl j, by omega, heqc, hd3, himp⟩
        · rw [if_neg himp] at h
          obtain ⟨jj, ic2, idd2, hr, hle, hrest⟩ := ih (j + 1) r (by omega) h
          exact ⟨jj, ic2, idd2, hr, by omega, hrest⟩
    all_goals simp at h

theorem scanI_some_spec {m : ℕ} (d : Fin m → Fin m → PF)
    (idx : String → Option (Fin m)) (best : List String) (cyc : Bool) (n : ℕ) :
    ∀ (cnt i : ℕ) (r : ℕ × ℕ × PF),
      cnt + i = n - 2 →
      scanI d idx best cyc n cnt i = .ok (some r) →
      ∃ ii jj ia ib ic idd,
        r = (ii, jj, ((d ia ic).add (d ib idd)).sub
          ((d ia ib).add (d ic idd))) ∧
        i ≤ ii ∧ ii + 1 ≤ n - 2 ∧ ii + 1 ≤ jj ∧ jj + 1 ≤ n - 1 ∧
        idx (nth best (ii - 1)) = some ia ∧ idx (nth best ii) = some ib ∧
        idx (nth best jj) = some ic ∧ idx (nth best (jj + 1)) = some idd ∧
        ((d ia ic).add (d ib idd)).lt ((d ia ib).add (d ic idd)) = true := by
  intro cnt
  induction cnt with
  | zero =>
    intro i r _ h
    rw [scanI] at h
    simp at h
  | succ cnt ih =>
    intro i r hinv h
    rw [scanI] at h
    split at h
    next ia ib heqa heqb =>
      split at h
      next e heq => simp at h
      next rj heq =>
        simp at h
        obtain ⟨jj, ic, idd, hr, hle, hjn, hic, hidd, himp⟩ :=
          scanJ_some_spec d idx best cyc n i (nth best (i - 1)) (nth best i)
            ia ib (cnt + 1) (i + 1) rj (by omega) heq
        rw [← h]
        exact ⟨i, jj, ia, ib, ic, idd, hr, le_refl i, by omega, by omega, hjn,
          heqa, heqb, hic, hidd, himp⟩
      next heq =>
        obtain ⟨ii, jj, ia2, ib2, ic2, idd2, hr, hle, hrest⟩ :=
          ih (i + 1) r (by omega) h
        exact ⟨ii, jj, ia2, ib2, ic2, idd2, hr, by omega, hrest⟩
    all_goals simp at h

theorem nth_eq_getElem {l : List String} {k : ℕ} (h : k < l.length) :
    l[k]? = some (nth l k) := by
  rw [List.getElem?_eq_getElem h, nth, List.get?_eq_getElem?,
    List.getElem?_eq_getElem h]
  rfl

theorem doSwap_parts (best : List String) (ii jj n : ℕ)
    (hlen : best.length = n) (h1 : 1 ≤ ii) (h2 : ii + 1 ≤ jj)
    (h3 : jj + 1 ≤ n - 1) (h4 : 4 ≤ n) :
    ∃ P M S,
      best = P ++ M ++ S ∧
      doSwap best ii jj = P ++ M.reverse ++ S ∧
      P.getLast? = some (nth best (ii - 1)) ∧
      M.head? = some (nth best ii) ∧
      M.getLast? = some (nth best jj) ∧
      S.head? = some (nth best (jj + 1)) ∧
      P ≠ [] ∧ M ≠ [] ∧ S ≠ [] := by
  refine ⟨best.take ii, (best.drop ii).take (jj + 1 - ii), best.drop (jj + 1),
    ?_, rfl, ?_, ?_, ?_, ?_, ?_, ?_, ?_⟩
  · rw [List.append_assoc]
    have hdd : (best.drop ii).drop (jj + 1 - ii) = best.drop (jj + 1) := by
      rw [List.drop_drop]
      congr 1
      omega
    rw [← hdd, List.take_append_drop, List.take_append_drop]
  · have hPlen : (best.take ii).length = ii := by
      rw [List.length_take]
      omega
    rw [List.getLast?_eq_getElem?, hPlen, List.getElem?_take]
    rw [if_pos (by omega)]
    exact nth_eq_getElem (by omega)
  · have hMlen : ((best.drop ii).take (jj + 1 - ii)).length = jj + 1 - ii := by
      rw [List.length_take, List.length_drop]
      omega
    rw [List.head?_eq_getElem?, List.getElem?_take, if_pos (by omega),
      List.getElem?_drop]
    rw [show ii + 0 = ii from by omega]
    exact nth_eq_getElem (by omega)
  · have hMlen : ((best.drop ii).take (jj + 1 - ii)).length = jj + 1 - ii := by
      rw [List.length_take, List.length_drop]
      omega
    rw [List.getLast?_eq_getElem?, hMlen, List.getElem?_take,
      if_pos (by omega), List.getElem?_drop]
    rw [show ii + (jj + 1 - ii - 1) = jj from by omega]
    exact nth_eq_getElem (by omega)
  · rw [List.head?_drop]
    exact nth_eq_getElem (by omega)
  · have hPlen : (best.take ii).length = ii := by
      rw [List.length_take]; omega
    intro h
    rw [h] at hPlen
    simp at hPlen
    omega
  · have hMlen : ((best.drop ii).take (jj + 1 - ii)).length = jj + 1 - ii := by
      rw [List.length_take, List.length_drop]; omega
    intro h
    rw [h] at hMlen
    simp at hMlen
    omega
  · have hSlen : (best.drop (jj + 1)).length = n - (jj + 1) := by
      rw [List.length_drop, hlen]
    intro h
    rw [h] at hSlen
    simp at hSlen
    omega

theorem costIds_isFin {m : ℕ} {d : Fin m → Fin m → PF}
    {idx : String → Option (Fin m)} (hfin : ∀ i j, (d i j).isFin) :
    ∀ (t : List String) (v : PF), costIds d idx t = some v → v.isFin := by
  intro t
  induction t with
  | nil =>
    intro v hv
    have h0 : costIds d idx ([] : List String) = some (PF.fin 0) := rfl
    rw [h0] at hv
    rw [← Option.some.inj hv]
    simp [PF.isFin]
  | cons x t ih =>
    intro v hv
    cases t with
    | nil =>
      have h0 : costIds d idx [x] = some (PF.fin 0) := rfl
      rw [h0] at hv
      rw [← Option.some.inj hv]
      simp [PF.isFin]
    | cons y r =>
      rw [costIds] at hv
      rcases hx : idx x with _ | ix
      · rw [hx] at hv; simp at hv
      rcases hy : idx y with _ | iy
      · rw [hx, hy] at hv; simp at hv
      rcases hr : costIds d idx (y :: r) with _ | vr
      · rw [hx, hy, hr] at hv; simp at hv
      rw [hx, hy, hr] at hv
      simp at hv
      rw [← hv]
      have h1 := hfin ix iy
      have h2 := ih vr hr
      cases ha : d ix iy <;> rw [ha] at h1 <;>
        cases hb : vr <;> rw [hb] at h2 <;>
        simp [PF.isFin, PF.add] at h1 h2 ⊢

theorem twoOptLoop_shape {m : ℕ} (d : Fin m → Fin m → PF)
    (idx : String → Option (Fin m)) (cyc : Bool) (n : ℕ) (h4 : 4 ≤ n) :
    ∀ (fuel : ℕ) (best : List String) (len : PF) (t2 : List String) (l2 : PF),
      twoOptLoop d idx cyc n fuel best len = .ok (t2, l2) →
      best.length = n →
      t2.length = n ∧ t2.Perm best ∧ t2.head? = best.head? ∧
      t2.getLast? = best.getLast? := by
  intro fuel
  induction fuel with
  | zero =>
    intro best len t2 l2 h _
    rw [twoOptLoop] at h
    exact absurd h (by simp)
  | succ fuel ih =>
    intro best len t2 l2 h hlen
    rw [twoOptLoop] at h
    split at h
    next e heq => exact absurd h (by simp)
    next heq =>
      simp at h
      obtain ⟨h1, h2⟩ := h
      subst h1
      subst h2
      exact ⟨hlen, List.Perm.refl _, rfl, rfl⟩
    next ii jj delta heq =>
      obtain ⟨ii2, jj2, ia, ib, ic, idd, hr, hle1, hle2, hle3, hle4,
        ha, hb, hc, hd2, himp⟩ :=
        scanI_some_spec d idx best cyc n (n - 3) 1 (ii, jj, delta)
          (by omega) heq
      obtain ⟨heq1, heq2, heq3⟩ : ii = ii2 ∧ jj = jj2 ∧
          delta = ((d ia ic).add (d ib idd)).sub ((d ia ib).add (d ic idd)) := by
        have h1 := congrArg Prod.fst hr
        have h2 := congrArg (fun p => p.2.1) hr
        have h3 := congrArg (fun p => p.2.2) hr
        exact ⟨h1, h2, h3⟩
      subst heq1
      subst heq2
      obtain ⟨P, M, S, hdec, hswap, hPl, hMh, hMl, hSh, hPne, hMne, hSne⟩ :=
        doSwap_parts best ii jj n hlen (by omega) (by omega) (by omega) h4
      have hswlen : (doSwap best ii jj).length = n := by
        rw [hswap]
        have := congrArg List.length hdec
        rw [hlen] at this
        simp at this ⊢
        omega
      obtain ⟨ht1, ht2, ht3, ht4⟩ := ih (doSwap best ii jj)
        (len.add delta) t2 l2 h hswlen
      have hMrne : M.reverse ≠ [] := by simpa using hMne
      refine ⟨ht1, ?_, ?_, ?_⟩
      · refine ht2.trans ?_
        rw [hswap, hdec, List.append_assoc, List.append_assoc]
        exact List.Perm.append_left P
          (List.Perm.append_right S (List.reverse_perm M))
      · rw [ht3, hswap, hdec, List.append_assoc, List.append_assoc,
          List.head?_append_of_ne_nil _ hPne,
          List.head?_append_of_ne_nil _ hPne]
      · rw [ht4, hswap, hdec, List.append_assoc, List.append_assoc,
          List.getLast?_append_of_ne_nil P
            (show M.reverse ++ S ≠ [] by simp [hSne]),
          List.getLast?_append_of_ne_nil P
            (show M ++ S ≠ [] by simp [hSne]),
          List.getLast?_append_of_ne_nil _ hSne,
          List.getLast?_append_of_ne_nil _ hSne]

theorem PF.sub_fin (a b : ℤ) : (PF.fin a).sub (PF.fin b) = PF.fin (a - b) := by
  rw [PF.sub, PF.neg, PF.add_fin]
  congr 1

theorem wOf_symm {m : ℕ} (d : Fin m → Fin m → PF)
    (idx : String → Option (Fin m)) (hsym : ∀ i j, d i j = d j i) :
    ∀ x y, wOf d idx x y = wOf d idx y x := by
  intro x y
  rw [wOf, wOf]
  cases idx x <;> cases idx y <;> simp [hsym]

theorem swap_cost_eq {m : ℕ} (d : Fin m → Fin m → PF)
    (idx : String → Option (Fin m)) (hsym : ∀ i j, d i j = d j i)
    (hfin : ∀ i j, (d i j).isFin)
    (best : List String) (ii jj n : ℕ) (len : PF)
    (ia ib ic idd : Fin m)
    (hlen : best.length = n) (hb1 : 1 ≤ ii) (hb2 : ii + 1 ≤ jj)
    (hb3 : jj + 1 ≤ n - 1) (h4 : 4 ≤ n)
    (ha : idx (nth best (ii - 1)) = some ia) (hb : idx (nth best ii) = some ib)
    (hc : idx (nth best jj) = some ic) (hd2 : idx (nth best (jj + 1)) = some idd)
    (hcost : costIds d idx best = some len) :
    costIds d idx (doSwap best ii jj)
      = some (len.add (((d ia ic).add (d ib idd)).sub
          ((d ia ib).add (d ic idd)))) := by
  obtain ⟨P, M, S, hdec, hswap, hPl, hMh, hMl, hSh, hPne, hMne, hSne⟩ :=
    doSwap_parts best ii jj n hlen hb1 hb2 hb3 h4
  set w := wOf d idx with hw
  have hwsym := wOf_symm d idx hsym
  have hw1 : w (nth best (ii - 1)) (nth best ii) = d ia ib := by
    rw [hw, wOf, ha, hb]
  have hw2 : w (nth best jj) (nth best (jj + 1)) = d ic idd := by
    rw [hw, wOf, hc, hd2]
  have hw3 : w (nth best (ii - 1)) (nth best jj) = d ia ic := by
    rw [hw, wOf, ha, hc]
  have hw4 : w (nth best ii) (nth best (jj + 1)) = d ib idd := by
    rw [hw, wOf, hb, hd2]
  obtain ⟨hform1, hform2⟩ := costL_swap_decomp w hwsym P M S
    (nth best (ii - 1)) (nth best ii) (nth best jj) (nth best (jj + 1))
    hPl hMh hMl hSh
  rw [hw1, hw2] at hform1
  rw [hw3, hw4] at hform2
  have hlenval : len = costL w best := costIds_eq_costL d idx best len hcost
  have hlf : len.isFin := costIds_isFin hfin best len hcost
  have hdef : ∀ x ∈ best, (idx x).isSome :=
    costIds_defined d idx best len hcost (by omega)
  have hdefsw : ∀ x ∈ doSwap best ii jj, (idx x).isSome := by
    intro x hx
    apply hdef
    rw [hswap] at hx
    rw [hdec]
    rcases List.mem_append.mp hx with hx1 | hx1
    · rcases List.mem_append.mp hx1 with hx2 | hx2
      · exact List.mem_append.mpr (Or.inl (List.mem_append.mpr (Or.inl hx2)))
      · exact List.mem_append.mpr (Or.inl (List.mem_append.mpr
          (Or.inr (List.mem_reverse.mp hx2))))
    · exact List.mem_append.mpr (Or.inr hx1)
  rw [costIds_of_defined d idx (doSwap best ii jj) hdefsw]
  congr 1
  rw [hswap, ← hw, hform2]
  -- extract the integer components and close with ring arithmetic
  have hlform : len = (costL w P).add ((d ia ib).add ((costL w M).add
      ((d ic idd).add (costL w S)))) := by
    rw [hlenval, hdec]
    exact hform1
  have hsum : ((costL w P).add ((d ia ib).add ((costL w M).add
      ((d ic idd).add (costL w S))))).isFin := by rw [← hlform]; exact hlf
  obtain ⟨hfP, hrest1⟩ := PF.isFin_of_add_isFin hsum
  obtain ⟨_, hrest2⟩ := PF.isFin_of_add_isFin hrest1
  obtain ⟨hfM, hrest3⟩ := PF.isFin_of_add_isFin hrest2
  obtain ⟨_, hfS⟩ := PF.isFin_of_add_isFin hrest3
  have hfab := hfin ia ib
  have hfcd := hfin ic idd
  have hfac := hfin ia ic
  have hfbd := hfin ib idd
  rcases hcp : costL w P with p | _ | _ | _ <;> rw [hcp] at hfP <;>
    try simp [PF.isFin] at hfP
  rcases hcm : costL w M with q | _ | _ | _ <;> rw [hcm] at hfM <;>
    try simp [PF.isFin] at hfM
  rcases hcs : costL w S with s | _ | _ | _ <;> rw [hcs] at hfS <;>
    try simp [PF.isFin] at hfS
  rcases h1 : d ia ib with ab | _ | _ | _ <;> rw [h1] at hfab <;>
    try simp [PF.isFin] at hfab
  rcases h2 : d ic idd with cd | _ | _ | _ <;> rw [h2] at hfcd <;>
    try simp [PF.isFin] at hfcd
  rcases h3 : d ia ic with ac | _ | _ | _ <;> rw [h3] at hfac <;>
    try simp [PF.isFin] at hfac
  rcases h4v : d ib idd with bd | _ | _ | _ <;> rw [h4v] at hfbd <;>
    try simp [PF.isFin] at hfbd
  rw [hlform, hcp, hcm, hcs, h1, h2]
  simp only [PF.add_fin, PF.sub_fin]
  congr 1
  ring

theorem PF.isFin_add {x y : PF} (hx : x.isFin) (hy : y.isFin) :
    (x.add y).isFin := by
  cases x <;> cases y <;> simp [PF.isFin, PF.add] at *

theorem PF.add_sub_lt_le {l a b : PF} (hl : l.isFin) (ha : a.isFin)
    (hb : b.isFin) (h : a.lt b = true) : (l.add (a.sub b)).le l = true := by
  cases l <;> cases a <;> cases b <;>
    simp [PF.isFin, PF.lt, PF.le, PF.add, PF.sub, PF.neg] at * <;> linarith

theorem twoOptLoop_cost {m : ℕ} (d : Fin m → Fin m → PF)
    (idx : String → Option (Fin m)) (cyc : Bool) (n : ℕ) (h4 : 4 ≤ n)
    (hsym : ∀ i j, d i j = d j i) (hfin : ∀ i j, (d i j).isFin) :
    ∀ (fuel : ℕ) (best : List String) (len : PF) (t2 : List String) (l2 : PF),
      twoOptLoop d idx cyc n fuel best len = .ok (t2, l2) →
      best.length = n →
      costIds d idx best = some len →
      costIds d idx t2 = some l2 ∧ l2.le len = true := by
  intro fuel
  induction fuel with
  | zero =>
    intro best len t2 l2 h _ _
    rw [twoOptLoop] at h
    exact absurd h (by simp)
  | succ fuel ih =>
    intro best len t2 l2 h hlen hcost
    rw [twoOptLoop] at h
    split at h
    next e heq => exact absurd h (by simp)
    next heq =>
      simp at h
      obtain ⟨h1, h2⟩ := h
      subst h1
      subst h2
      refine ⟨hcost, PF.le_refl ?_⟩
      have hlf : len.isFin := costIds_isFin hfin best len hcost
      cases len <;> simp [PF.isFin] at hlf ⊢
    next ii jj delta heq =>
      obtain ⟨ii2, jj2, ia, ib, ic, idd, hr, hle1, hle2, hle3, hle4,
        ha, hb, hc, hd2, himp⟩ :=
        scanI_some_spec d idx best cyc n (n - 3) 1 (ii, jj, delta)
          (by omega) heq
      obtain ⟨heq1, heq2, heq3⟩ : ii = ii2 ∧ jj = jj2 ∧
          delta = ((d ia ic).add (d ib idd)).sub ((d ia ib).add (d ic idd)) := by
        have h1 := congrArg Prod.fst hr
        have h2 := congrArg (fun p => p.2.1) hr
        have h3 := congrArg (fun p => p.2.2) hr
        exact ⟨h1, h2, h3⟩
      subst heq1
      subst heq2
      subst heq3
      have hsw := swap_cost_eq d idx hsym hfin best ii jj n len ia ib ic idd
        hlen (by omega) (by omega) (by omega) h4 ha hb hc hd2 hcost
      obtain ⟨P, M, S, hdec, hswap, _, _, _, _, hPne, hMne, hSne⟩ :=
        doSwap_parts best ii jj n hlen (by omega) (by omega) (by omega) h4
      have hswlen : (doSwap best ii jj).length = n := by
        rw [hswap]
        have := congrArg List.length hdec
        rw [hlen] at this
        simp at this ⊢
        omega
      obtain ⟨hc2, hl2⟩ := ih (doSwap best ii jj)
        (len.add (((d ia ic).add (d ib idd)).sub ((d ia ib).add (d ic idd))))
        t2 l2 h hswlen hsw
      refine ⟨hc2, PF.le_trans hl2 ?_⟩
      exact PF.add_sub_lt_le (costIds_isFin hfin best len hcost)
        (PF.isFin_add (hfin ia ic) (hfin ib idd))
        (PF.isFin_add (hfin ia ib) (hfin ic idd)) himp

/-- C2 counterexample: on an asymmetric matrix the incremental delta added by
`tsp_2opt` is inconsistent with the actual tour cost.  The input tour
`A B C D` has consecutive-entry sum 20, and the call returns the tour
`A C B D` with reported length 2, but the sum of consecutive entries along
`A C B D` is 102: the returned length does not equal the cost of the
returned tour. -/
theorem tsp_2opt_asymmetric_counterexample :
    costIds mAsym idxABCD ["A", "B", "C", "D"] = some (PF.fin 20) ∧
    (["A", "B", "C", "D"] : List String).length = 4 ∧
    tsp2opt mAsym idxABCD ["A", "B", "C", "D"] (PF.fin 20) 2
      = .ok (["A", "C", "B", "D"], PF.fin 2) ∧
    costIds mAsym idxABCD ["A", "C", "B", "D"] = some (PF.fin 102) ∧
    PF.fin 2 ≠ PF.fin 102 :=
  ⟨by decide, by decide, by decide, by decide, by decide⟩

/-- C2 (amended): over a symmetric distance matrix with all entries finite,
whenever `tsp_2opt` returns normally on a tour whose stated length is the sum
of consecutive matrix entries along it, the returned length equals the sum of
consecutive matrix entries along the returned tour, the returned length does
not exceed the input length, the returned tour is a permutation of the input
tour, and it is closed (first = last) iff the input was.  Symmetry and
finiteness are necessary: `tsp_2opt_asymmetric_counterexample` refutes the
claim for asymmetric matrices. -/
theorem tsp_2opt_cost_consistent {m : ℕ} (d : Fin m → Fin m → PF)
    (idx : String → Option (Fin m)) (tour : List String) (len : PF)
    (fuel : ℕ) (t2 : List String) (l2 : PF)
    (hsym : ∀ i j, d i j = d j i) (hfin : ∀ i j, (d i j).isFin)
    (hcost : costIds d idx tour = some len)
    (h : tsp2opt d idx tour len fuel = .ok (t2, l2)) :
    costIds d idx t2 = some l2 ∧ l2.le len = true ∧ t2.Perm tour ∧
    (t2.head? = t2.getLast? ↔ tour.head? = tour.getLast?) := by
  rw [tsp2opt] at h
  by_cases hlt : tour.length < 4
  · rw [if_pos hlt] at h
    exact absurd h (by simp)
  · rw [if_neg hlt] at h
    have h4 : 4 ≤ tour.length := by omega
    obtain ⟨hcc, hle⟩ := twoOptLoop_cost d idx _ tour.length h4 hsym hfin
      fuel tour len t2 l2 h rfl hcost
    obtain ⟨_, hperm, hh, hl⟩ := twoOptLoop_shape d idx _ tour.length h4
      fuel tour len t2 l2 h rfl
    exact ⟨hcc, hle, hperm, by rw [hh, hl]⟩

/-- Closed-form instance of `tsp_2opt_cost_consistent` on the symmetric matrix
`mSym4`. -/
theorem tsp_2opt_cost_consistent_witness :
    costIds mSym4 idxABCD ["A", "C", "B", "D"] = some (PF.fin 12) ∧
    tsp2opt mSym4 idxABCD ["A", "C", "B", "D"] (PF.fin 12) 4
      = .ok (["A", "B", "C", "D"], PF.fin 11) ∧
    (costIds mSym4 idxABCD ["A", "B", "C", "D"] = some (PF.fin 11) ∧
      (PF.fin 11).le (PF.fin 12) = true ∧
      (["A", "B", "C", "D"] : List String).Perm ["A", "C", "B", "D"] ∧
      ((["A", "B", "C", "D"] : List String).head?
          = (["A", "B", "C", "D"] : List String).getLast? ↔
        (["A", "C", "B", "D"] : List String).head?
          = (["A", "C", "B", "D"] : List String).getLast?)) :=
  ⟨by decide, by decide,
    tsp_2opt_cost_consistent mSym4 idxABCD ["A", "C", "B", "D"] (PF.fin 12) 4
      ["A", "B", "C", "D"] (PF.fin 11) (by decide) (by decide) (by decide)
      (by decide)⟩

/-- C9: `tsp_2opt` never moves the endpoints of the tour: whenever it returns
normally, the returned tour has the same first element and the same last
element as the input tour, and is a permutation of it (only interior segments
are reversed). -/
theorem tsp_2opt_preserves_endpoints {m : ℕ} (d : Fin m → Fin m → PF)
    (idx : String → Option (Fin m)) (tour : List String) (len : PF)
    (fuel : ℕ) (t2 : List String) (l2 : PF)
    (h : tsp2opt d idx tour len fuel = .ok (t2, l2)) :
    t2.head? = tour.head? ∧ t2.getLast? = tour.getLast? ∧ t2.Perm tour := by
  rw [tsp2opt] at h
  by_cases hlt : tour.length < 4
  · rw [if_pos hlt] at h
    exact absurd h (by simp)
  · rw [if_neg hlt] at h
    obtain ⟨_, hperm, hh, hl⟩ := twoOptLoop_shape d idx _ tour.length
      (by omega) fuel tour len t2 l2 h rfl
    exact ⟨hh, hl, hperm⟩

/-- Closed-form instance of `tsp_2opt_preserves_endpoints` on the asymmetric
matrix `mAsym`. -/
theorem tsp_2opt_preserves_endpoints_witness :
    tsp2opt mAsym idxABCD ["A", "B", "C", "D"] (PF.fin 20) 2
      = .ok (["A", "C", "B", "D"], PF.fin 2) ∧
    ((["A", "C", "B", "D"] : List String).head?
        = (["A", "B", "C", "D"] : List String).head? ∧
      (["A", "C", "B", "D"] : List String).getLast?
        = (["A", "B", "C", "D"] : List String).getLast? ∧
      (["A", "C", "B", "D"] : List String).Perm ["A", "B", "C", "D"]) :=
  ⟨by decide, tsp_2opt_preserves_endpoints mAsym idxABCD ["A", "B", "C", "D"]
    (PF.fin 20) 2 ["A", "C", "B", "D"] (PF.fin 2) (by decide)⟩

theorem reconWalk_cyc_out :
    ∀ (fuel : ℕ) (cur : String) (path : List String),
      cur = "A" ∨ cur = "B" →
      reconWalk ["A", "B"] prevCyc "S" fuel (some cur) path = .out := by
  intro fuel
  induction fuel with
  | zero =>
    intro cur path _
    rw [reconWalk]
  | succ fuel ih =>
    intro cur path h
    rw [reconWalk]
    rcases h with h | h <;> subst h
    · rw [if_neg (by decide), if_pos (by decide)]
      have hp : prevCyc "A" = some "B" := rfl
      rw [hp]
      exact ih "B" _ (Or.inr rfl)
    · rw [if_neg (by decide), if_pos (by decide)]
      have hp : prevCyc "B" = some "A" := rfl
      rw [hp]
      exact ih "A" _ (Or.inl rfl)

theorem reconstructPath_cyc_out_all :
    ∀ fuel : ℕ, reconstructPath ["A", "B"] prevCyc "S" "A" fuel = .out := by
  intro fuel
  rw [reconstructPath, if_neg (by decide), if_neg (by simp [prevCyc])]
  exact reconWalk_cyc_out fuel "A" [] (Or.inl rfl)

/-- C7 counterexample: on the malformed predecessor mapping with the 2-cycle
`A -> B -> A` (source `S` unreachable from the chain), the
`reconstruct_path` walk is still running after 1000 steps even though the
key set has only 2 entries: the walk is bounded neither by the graph size
nor by revisit detection (`reconstructPath_cyc_out_all` proves the same for
every finite step budget, i.e. the loop never terminates). -/
theorem reconstruct_path_cycle_counterexample :
    (["A", "B"] : List String).length = 2 ∧
    reconstructPath ["A", "B"] prevCyc "S" "A" 1000 = .out :=
  ⟨rfl, reconstructPath_cyc_out_all 1000⟩

theorem reconWalk_done_not_out (keys : List String)
    (prev : String → Option String) (source : String) :
    ∀ (fuel : ℕ) (cur : Option String) (path : List String) (k : ℕ),
      k < fuel →
      chainDone keys source (chainIter prev k cur) →
      reconWalk keys prev source fuel cur path ≠ .out := by
  intro fuel
  induction fuel with
  | zero =>
    intro cur path k hk _
    omega
  | succ fuel ih =>
    intro cur path k hk hdone
    match cur with
    | none =>
      rw [reconWalk]
      simp
    | some x =>
      rw [reconWalk]
      by_cases hs : x = source
      · rw [if_pos hs]
        simp
      · rw [if_neg hs]
        by_cases hkey : x ∈ keys
        · rw [if_pos hkey]
          match k with
          | 0 =>
            rw [chainIter] at hdone
            rw [chainDone] at hdone
            rcases hdone with h | h
            · exact absurd h hs
            · exact absurd hkey h
          | k + 1 =>
            rw [chainIter] at hdone
            have hstep : chainStep prev (some x) = prev x := rfl
            rw [hstep] at hdone
            exact ih (prev x) (path ++ [x]) k (by omega) hdone
        · rw [if_neg hkey]
          simp

/-- C7 (amended): `reconstruct_path` terminates exactly when the predecessor
chain from the target is well founded: if, within some number of steps `k`
smaller than the available budget, the chain from the target reaches the
source, a `None` entry, or a key absent from the mapping, then the walk
finishes (normally or with a `KeyError`).  On malformed mappings whose chain
never does — e.g. a cycle, `reconstruct_path_cycle_counterexample` — the
`while current is not None` loop runs forever: there is no bound by graph
size and no revisit detection. -/
theorem reconstruct_path_terminates (keys : List String)
    (prev : String → Option String) (source target : String) (fuel k : ℕ)
    (hk : k < fuel)
    (hdone : chainDone keys source (chainIter prev k (some target))) :
    reconstructPath keys prev source target fuel ≠ .out := by
  rw [reconstructPath]
  by_cases hs : target = source
  · rw [if_pos hs]
    simp
  · rw [if_neg hs]
    by_cases htriv : target ∉ keys ∨ prev target = none
    · rw [if_pos htriv]
      simp
    · rw [if_neg htriv]
      exact reconWalk_done_not_out keys prev source fuel (some target) [] k
        hk hdone

/-- Closed-form instance of `reconstruct_path_terminates` for the mapping
`B -> A` with source `A` and target `B`. -/
theorem reconstruct_path_terminates_witness :
    (1 < 3 ∧ chainDone ["A", "B"] "A" (chainIter prevAB 1 (some "B"))) ∧
    reconstructPath ["A", "B"] prevAB "A" "B" 3 ≠ .out :=
  ⟨⟨by decide, Or.inl rfl⟩,
    reconstruct_path_terminates ["A", "B"] prevAB "A" "B" 3 1 (by decide)
      (Or.inl rfl)⟩

theorem PF.ne_inf_of_lt {x y : PF} (h : x.lt y = true) : x ≠ PF.inf := by
  cases x <;> cases y <;> simp [PF.lt] at *

theorem relaxFold_inf_inv (u : String) (du : PF) :
    ∀ (nbrs : List (String × PF)) (st : DState),
      (∀ v, st.dist v = PF.inf ↔ v ∉ st.discovered) →
      ∀ v, (relaxFold u du nbrs st).dist v = PF.inf ↔
        v ∉ (relaxFold u du nbrs st).discovered := by
  intro nbrs
  induction nbrs with
  | nil =>
    intro st hst v
    exact hst v
  | cons p rest ih =>
    intro st hst v
    rw [relaxFold, List.foldl_cons, ← relaxFold]
    dsimp only
    by_cases hlt : (du.add p.2).lt (st.dist p.1) = true
    · rw [if_pos hlt]
      apply ih
      intro w
      dsimp only
      by_cases hw : w = p.1
      · rw [if_pos hw]
        subst hw
        constructor
        · intro habs
          exact absurd habs (PF.ne_inf_of_lt hlt)
        · intro habs
          exact absurd (List.mem_append.mpr (Or.inr (List.mem_singleton.mpr
            rfl))) habs
      · rw [if_neg hw]
        rw [hst w]
        constructor
        · intro h1 h2
          rcases List.mem_append.mp h2 with h3 | h3
          · exact h1 h3
          · exact hw (List.mem_singleton.mp h3)
        · intro h1 h2
          exact h1 (List.mem_append.mpr (Or.inl h2))
    · rw [if_neg hlt]
      exact ih st hst v

theorem dijkstraLoop_inf_inv (g : Graph) (tgt : Option String) :
    ∀ (fuel : ℕ) (st st' : DState),
      dijkstraLoop g tgt fuel st = .ok st' →
      (∀ v, st.dist v = PF.inf ↔ v ∉ st.discovered) →
      ∀ v, st'.dist v = PF.inf ↔ v ∉ st'.discovered := by
  intro fuel
  induction fuel with
  | zero =>
    intro st st' h _
    rw [dijkstraLoop] at h
    exact absurd h (by simp)
  | succ fuel ih =>
    intro st st' h hst
    rw [dijkstraLoop] at h
    split at h
    next heq =>
      simp at h
      subst h
      exact hst
    next du u rest heq =>
      by_cases hstale : du.gt (st.dist u) = true
      · rw [if_pos hstale] at h
        exact ih _ st' h hst
      · rw [if_neg hstale] at h
        by_cases htgt : tgt = some u
        · rw [if_pos htgt] at h
          simp at h
          subst h
          exact hst
        · rw [if_neg htgt] at h
          split at h
          next heq2 => exact absurd h (by simp)
          next nd heq2 =>
            apply ih _ st' h
            exact relaxFold_inf_inv u du nd.neighbours _ hst

/-- C4 counterexample: in the fork `A -> B (1)`, `A -> C (5)` with target
`B`, the early-exit run finalises only `A` and `B` (`processed = [A, B]`),
yet the non-finalised node `C` holds the finite tentative distance `5`, not
`+inf`: at the moment the target is popped, already-relaxed but unfinalised
nodes keep their finite tentative values. -/
theorem dijkstra_early_exit_counterexample :
    dijkstraObs gFork "A" (some "B") 20 "C"
      = some (PF.fin 5, some "A", ["A", "B"], true) ∧
    "C" ∉ (["A", "B"] : List String) ∧ PF.fin 5 ≠ PF.inf :=
  ⟨by decide, by decide, by decide⟩

/-- C4 (amended): when `dijkstra` returns (early exit or not), a node holds
`+inf` in the distances mapping iff it was never discovered, i.e. neither the
source nor ever touched by an improving relaxation.  Nodes that were
discovered but not yet finalised when the target was popped keep their
finite tentative distances (`dijkstra_early_exit_counterexample`); only
never-relaxed nodes remain at `+inf`. -/
theorem dijkstra_inf_iff_undiscovered (g : Graph) (source : String)
    (tgt : Option String) (fuel : ℕ) (v : String) (dv : PF)
    (pv : Option String) (pr : List String) (disc : Bool)
    (h : dijkstraObs g source tgt fuel v = some (dv, pv, pr, disc)) :
    dv = PF.inf ↔ disc = false := by
  rw [dijkstraObs] at h
  split at h
  next st heq =>
    simp only [Option.some.injEq, Prod.mk.injEq] at h
    obtain ⟨h1, _, _, h4⟩ := h
    subst h1
    subst h4
    rw [decide_eq_false_iff_not]
    apply dijkstraLoop_inf_inv g tgt fuel (dijkstraInit source) st heq
    intro w
    by_cases hw : w = source <;> simp [dijkstraInit, hw]
  next heq => exact absurd h (by simp)

/-- Closed-form instance of `dijkstra_inf_iff_undiscovered` on the fork
graph. -/
theorem dijkstra_inf_iff_undiscovered_witness :
    dijkstraObs gFork "A" (some "B") 20 "C"
      = some (PF.fin 5, some "A", ["A", "B"], true) ∧
    (PF.fin 5 = PF.inf ↔ true = false) :=
  ⟨by decide, dijkstra_inf_iff_undiscovered gFork "A" (some "B") 20 "C"
    (PF.fin 5) (some "A") ["A", "B"] true (by decide)⟩

theorem PyRes.bind_ok {α β : Type} (a : α) (f : α → PyRes β) :
    (PyRes.ok a >>= f) = f a := rfl

theorem PyRes.bind_exn {α β : Type} (e : PyExn) (f : α → PyRes β) :
    ((PyRes.exn e : PyRes α) >>= f) = .exn e := rfl

theorem PyRes.bind_out {α β : Type} (f : α → PyRes β) :
    ((PyRes.out : PyRes α) >>= f) = .out := rfl

theorem PyRes.exists_ok_of_bind {α β : Type} {x : PyRes α} {f : α → PyRes β}
    (h : (x >>= f).isOk) : ∃ a, x = .ok a := by
  cases x with
  | ok a => exact ⟨a, rfl⟩
  | exn e =>
    rw [PyRes.bind_exn] at h
    simp [PyRes.isOk] at h
  | out =>
    rw [PyRes.bind_out] at h
    simp [PyRes.isOk] at h

theorem foldlM_ok_mem {α β : Type} (f : β → α → PyRes β) (z : α) :
    ∀ (l : List α) (b r : β), z ∈ l → l.foldlM f b = .ok r →
      ∃ b' r', f b' z = .ok r' := by
  intro l
  induction l with
  | nil =>
    intro b r hz _
    simp at hz
  | cons x xs ih =>
    intro b r hz h
    rw [List.foldlM_cons] at h
    cases hfb : f b x with
    | ok b1 =>
      rw [hfb, PyRes.bind_ok] at h
      rcases List.mem_cons.mp hz with hz1 | hz1
      · subst hz1
        exact ⟨b, b1, hfb⟩
      · exact ih b1 r hz1 h
    | exn e =>
      rw [hfb, PyRes.bind_exn] at h
      simp at h
    | out =>
      rw [hfb, PyRes.bind_out] at h
      simp at h

theorem Graph.find_eq_none {g : Graph} {z : String} (hz : z ∉ g.ids) :
    g.find z = none := by
  rw [Graph.find, List.find?_eq_none]
  intro nd hnd
  simp only [decide_eq_true_eq]
  intro heq
  exact hz (by rw [Graph.ids]; exact List.mem_map.mpr ⟨nd, hnd, heq⟩)

theorem dijkstra_missing_source (g : Graph) (z : String) (hz : z ∉ g.ids) :
    ∀ fuel, 1 ≤ fuel → dijkstra g z none fuel = .exn .keyError := by
  intro fuel hf
  obtain ⟨k, rfl⟩ : ∃ k, fuel = k + 1 := ⟨fuel - 1, by omega⟩
  have hpop : popMin (dijkstraInit z).pq = some ((PF.fin 0, z), []) := by
    dsimp only [dijkstraInit, popMin, List.foldl]
    rw [List.erase_cons_head]
  have hdz : (dijkstraInit z).dist z = PF.fin 0 := by
    simp [dijkstraInit]
  rw [dijkstra, dijkstraLoop, hpop]
  dsimp only
  rw [hdz]
  rw [if_neg (by simp [PF.gt, PF.lt])]
  rw [if_neg (by simp)]
  rw [Graph.find_eq_none hz]

/-- C3 counterexample: `distance_matrix` accepts a stops list with a
duplicate identifier without any error: on the triangle graph the call with
stops `[A, A]` returns normally (status 0), so no input-validation error is
ever raised for duplicates. -/
theorem distance_matrix_duplicates_counterexample :
    ¬ (["A", "A"] : List String).Nodup ∧
    (distanceMatrix gTri ["A", "A"] 20).status = 0 :=
  ⟨by decide, by decide⟩

/-- C3 (amended): `distance_matrix` performs no input validation at all.
Duplicate stops are accepted silently (the dict comprehension keeps the last
occurrence; see `distance_matrix_duplicates_counterexample`), while a stop
absent from the graph prevents a normal return only because the Dijkstra run
rooted at it crashes with a `KeyError` when looking the node up — an
incidental lookup failure, not a validation error. -/
theorem distance_matrix_no_missing_ok (g : Graph) (stops : List String)
    (z : String) (hzs : z ∈ stops) (hzg : z ∉ g.ids) (fuel : ℕ)
    (hf : 1 ≤ fuel) : ¬ (distanceMatrix g stops fuel).isOk := by
  intro hok
  rw [distanceMatrix] at hok
  obtain ⟨res, hres⟩ := PyRes.exists_ok_of_bind hok
  obtain ⟨b', r', hstep⟩ := foldlM_ok_mem _ z stops _ res hzs hres
  dsimp only at hstep
  rw [dijkstra_missing_source g z hzg fuel hf, PyRes.bind_exn] at hstep
  exact absurd hstep (by simp)

/-- Closed-form instance of `distance_matrix_no_missing_ok` on the triangle
graph with the foreign stop `Z`. -/
theorem distance_matrix_no_missing_ok_witness :
    ("Z" ∈ (["A", "Z"] : List String) ∧ "Z" ∉ gTri.ids ∧ 1 ≤ 20) ∧
    ¬ (distanceMatrix gTri ["A", "Z"] 20).isOk :=
  ⟨⟨by decide, by decide, by decide⟩,
    distance_matrix_no_missing_ok gTri ["A", "Z"] "Z" (by decide) (by decide)
      20 (by decide)⟩

theorem PF.lt_irrefl (x : PF) : x.lt x = false := by
  cases x <;> simp [PF.lt]

theorem PF.lt_trans {x y z : PF} (h1 : x.lt y = true) (h2 : y.lt z = true) :
    x.lt z = true := by
  cases x <;> cases y <;> cases z <;> simp [PF.lt] at * <;> linarith

theorem PF.not_lt_not_lt {x y z : PF} (hx : x ≠ PF.nan) (hy : y ≠ PF.nan)
    (hz : z ≠ PF.nan) (h1 : y.lt x = false) (h2 : x.lt z = false) :
    y.lt z = false := by
  cases x <;> cases y <;> cases z <;> simp [PF.lt] at * <;> linarith

theorem foldMin_mem :
    ∀ (xs : List (PF × String)) (x : PF × String),
      xs.foldl (fun acc y => if tupLt y acc then y else acc) x ∈ x :: xs := by
  intro xs
  induction xs with
  | nil =>
    intro x
    simp
  | cons y ys ih =>
    intro x
    rw [List.foldl_cons]
    by_cases hy : tupLt y x = true
    · rw [if_pos hy]
      exact List.mem_cons.mpr (Or.inr (ih y))
    · rw [if_neg hy]
      rcases List.mem_cons.mp (ih x) with h | h
      · rw [h]
        exact List.mem_cons_self x (y :: ys)
      · exact List.mem_cons.mpr (Or.inr (List.mem_cons.mpr (Or.inr h)))

theorem foldMin_not_lt :
    ∀ (xs : List (PF × String)) (x : PF × String),
      (∀ e ∈ x :: xs, e.1 ≠ PF.nan) →
      ∀ e ∈ x :: xs,
        e.1.lt ((xs.foldl (fun acc y => if tupLt y acc then y else acc) x).1)
          = false := by
  intro xs
  induction xs with
  | nil =>
    intro x _ e he
    rcases List.mem_cons.mp he with h | h
    · rw [h, List.foldl_nil]
      exact PF.lt_irrefl x.1
    · simp at h
  | cons y ys ih =>
    intro x hnn e he
    rw [List.foldl_cons]
    by_cases hy : tupLt y x = true
    · rw [if_pos hy]
      have hnn2 : ∀ e2 ∈ y :: ys, e2.1 ≠ PF.nan := by
        intro e2 he2
        exact hnn e2 (List.mem_cons.mpr (Or.inr he2))
      have hyres := ih y hnn2 y (List.mem_cons_self y ys)
      rcases List.mem_cons.mp he with h | h
      · rw [h]
        rw [tupLt] at hy
        rcases Bool.or_eq_true_iff.mp hy with hlt | heq2
        · by_contra hres
          rw [Bool.not_eq_false] at hres
          have hcontra := PF.lt_trans hlt hres
          rw [hyres] at hcontra
          simp at hcontra
        · have h1 : y.1 = x.1 :=
            of_decide_eq_true (Bool.and_eq_true_iff.mp heq2).1
          rw [← h1]
          exact hyres
      · exact ih y hnn2 e h
    · rw [if_neg hy]
      have hnn2 : ∀ e2 ∈ x :: ys, e2.1 ≠ PF.nan := by
        intro e2 he2
        rcases List.mem_cons.mp he2 with h | h
        · rw [h]
          exact hnn x (List.mem_cons_self x (y :: ys))
        · exact hnn e2 (List.mem_cons.mpr (Or.inr (List.mem_cons.mpr
            (Or.inr h))))
      rcases List.mem_cons.mp he with h | h
      · rw [h]
        exact ih x hnn2 x (List.mem_cons_self x ys)
      rcases List.mem_cons.mp h with h | h
      · rw [h]
        have htf : tupLt y x = false := by
          rw [Bool.eq_false_iff]
          exact hy
        rw [tupLt] at htf
        have hylt : y.1.lt x.1 = false := (Bool.or_eq_false_iff.mp htf).1
        have hxres := ih x hnn2 x (List.mem_cons_self x ys)
        have hresnn := hnn2 _ (foldMin_mem ys x)
        have hxnn := hnn x (List.mem_cons_self x (y :: ys))
        have hynn := hnn y (List.mem_cons.mpr (Or.inr
          (List.mem_cons_self y ys)))
        exact PF.not_lt_not_lt hxnn hynn hresnn hylt hxres
      · exact ih x hnn2 e (List.mem_cons.mpr (Or.inr h))

theorem popMin_mem {l : List (PF × String)} {m : PF × String}
    {rest : List (PF × String)} (h : popMin l = some (m, rest)) : m ∈ l := by
  match l with
  | [] => simp [popMin] at h
  | x :: xs =>
    rw [popMin] at h
    simp only [Option.some.injEq, Prod.mk.injEq] at h
    obtain ⟨h1, _⟩ := h
    rw [← h1]
    exact foldMin_mem xs x

theorem popMin_rest_sub {l : List (PF × String)} {m : PF × String}
    {rest : List (PF × String)} (h : popMin l = some (m, rest)) :
    ∀ e ∈ rest, e ∈ l := by
  match l with
  | [] => simp [popMin] at h
  | x :: xs =>
    rw [popMin] at h
    simp only [Option.some.injEq, Prod.mk.injEq] at h
    obtain ⟨_, h2⟩ := h
    intro e he
    rw [← h2] at he
    exact List.mem_of_mem_erase he

theorem popMin_not_lt {l : List (PF × String)} {m : PF × String}
    {rest : List (PF × String)} (h : popMin l = some (m, rest))
    (hnn : ∀ e ∈ l, e.1 ≠ PF.nan) : ∀ e ∈ l, e.1.lt m.1 = false := by
  match l with
  | [] => simp [popMin] at h
  | x :: xs =>
    rw [popMin] at h
    simp only [Option.some.injEq, Prod.mk.injEq] at h
    obtain ⟨h1, _⟩ := h
    intro e he
    rw [← h1]
    exact foldMin_not_lt xs x hnn e he

theorem PF.le_fin_iff {a b : ℤ} : (PF.fin a).le (PF.fin b) = true ↔ a ≤ b := by
  simp [PF.le]

theorem PF.lt_fin_iff {a b : ℤ} : (PF.fin a).lt (PF.fin b) = true ↔ a < b := by
  simp [PF.lt]

theorem relaxFold_main (u : String) (r : ℤ) (hr : 0 ≤ r) :
    ∀ (nbrs : List (String × PF)), (∀ p ∈ nbrs, p.2.isNN) →
    ∀ st : DState, DInv st → st.dist u = PF.fin r →
      DInv (relaxFold u (PF.fin r) nbrs st) ∧
      (∀ v, (st.dist v).le (PF.fin r) = true →
        (relaxFold u (PF.fin r) nbrs st).dist v = st.dist v ∧
        (relaxFold u (PF.fin r) nbrs st).prev v = st.prev v) ∧
      (∀ e ∈ (relaxFold u (PF.fin r) nbrs st).pq,
        e ∈ st.pq ∨ ∃ s : ℤ, r ≤ s ∧ e.1 = PF.fin s) := by
  intro nbrs
  induction nbrs with
  | nil =>
    intro _ st hinv _
    exact ⟨hinv, fun v _ => ⟨rfl, rfl⟩, fun e he => Or.inl he⟩
  | cons p rest ih =>
    obtain ⟨pv, pc⟩ := p
    intro hnn st hinv hu
    obtain ⟨hinv1, hinv2, hinv3⟩ := hinv
    have hnnrest : ∀ q ∈ rest, q.2.isNN :=
      fun q hq => hnn q (List.mem_cons.mpr (Or.inr hq))
    rw [relaxFold, List.foldl_cons, ← relaxFold]
    dsimp only
    by_cases hlt : ((PF.fin r).add pc).lt (st.dist pv) = true
    · rw [if_pos hlt]
      have hpnn : pc.isNN := hnn (pv, pc) (List.mem_cons_self _ _)
      obtain ⟨c, hc0, hc⟩ : ∃ c : ℤ, 0 ≤ c ∧ pc = PF.fin c := by
        cases hpc : pc with
        | fin c =>
          rw [hpc] at hpnn
          exact ⟨c, hpnn, rfl⟩
        | inf =>
          rw [hpc] at hlt
          cases hdv : st.dist pv <;> rw [hdv] at hlt <;>
            simp [PF.add, PF.lt] at hlt
        | ninf =>
          rw [hpc] at hpnn
          simp [PF.isNN] at hpnn
        | nan =>
          rw [hpc] at hpnn
          simp [PF.isNN] at hpnn
      subst hc
      simp only [PF.add_fin] at hlt ⊢
      have hupv : u ≠ pv := by
        intro heq
        rw [← heq, hu, PF.lt_fin_iff] at hlt
        omega
      have hfreeze : ∀ v, (st.dist v).le (PF.fin r) = true → v ≠ pv := by
        intro v hv heq
        rw [heq] at hv
        rcases hinv2 pv with hi | ⟨s, hs0, hs⟩
        · rw [hi] at hv
          simp [PF.le] at hv
        · rw [hs] at hv hlt
          rw [PF.le_fin_iff] at hv
          rw [PF.lt_fin_iff] at hlt
          omega
      set st1 : DState :=
        { st with
          dist := fun w => if w = pv then PF.fin (r + c) else st.dist w,
          prev := fun w => if w = pv then some u else st.prev w,
          pq := st.pq ++ [(PF.fin (r + c), pv)],
          discovered := st.discovered ++ [pv] } with hst1
      have hd1 : ∀ v, st1.dist v
          = if v = pv then PF.fin (r + c) else st.dist v := fun v => by
        rw [hst1]
      have hp1 : ∀ v, st1.prev v
          = if v = pv then some u else st.prev v := fun v => by
        rw [hst1]
      have hq1 : st1.pq = st.pq ++ [(PF.fin (r + c), pv)] := by
        rw [hst1]
      have hinvst1 : DInv st1 := by
        refine ⟨?_, ?_, ?_⟩
        · intro e he
          rw [hq1] at he
          rcases List.mem_append.mp he with he1 | he1
          · obtain ⟨s, hs0, hsf, hdle⟩ := hinv1 e he1
            refine ⟨s, hs0, hsf, ?_⟩
            rw [hd1]
            by_cases hev : e.2 = pv
            · rw [if_pos hev]
              rw [hev] at hdle
              exact PF.le_trans (PF.lt_le hlt) hdle
            · rw [if_neg hev]
              exact hdle
          · rw [List.mem_singleton] at he1
            subst he1
            refine ⟨r + c, by omega, rfl, ?_⟩
            rw [hd1]
            rw [if_pos rfl, PF.le_fin_iff]
        · intro v
          rw [hd1]
          by_cases hv : v = pv
          · rw [if_pos hv]
            exact Or.inr ⟨r + c, by omega, rfl⟩
          · rw [if_neg hv]
            exact hinv2 v
        · intro v w hvw
          rw [hp1] at hvw
          rw [hd1, hd1]
          by_cases hv : v = pv
          · rw [if_pos hv] at hvw
            injection hvw with hw
            rw [← hw]
            rw [if_pos hv, if_neg hupv, hu, PF.le_fin_iff]
            omega
          · rw [if_neg hv] at hvw
            have hch := hinv3 v w hvw
            rw [if_neg hv]
            by_cases hw : w = pv
            · rw [if_pos hw]
              rw [hw] at hch
              exact PF.le_trans (PF.lt_le hlt) hch
            · rw [if_neg hw]
              exact hch
      have hust1 : st1.dist u = PF.fin r := by
        rw [hd1, if_neg hupv]
        exact hu
      obtain ⟨ih1, ih2, ih3⟩ := ih hnnrest st1 hinvst1 hust1
      refine ⟨ih1, ?_, ?_⟩
      · intro v hv
        have hvp := hfreeze v hv
        have h1 : st1.dist v = st.dist v := by
          rw [hd1, if_neg hvp]
        have h2 : st1.prev v = st.prev v := by
          rw [hp1, if_neg hvp]
        have hv1 : (st1.dist v).le (PF.fin r) = true := by
          rw [h1]
          exact hv
        obtain ⟨ha, hb⟩ := ih2 v hv1
        exact ⟨ha.trans h1, hb.trans h2⟩
      · intro e he
        rcases ih3 e he with he1 | he1
        · rw [hq1] at he1
          rcases List.mem_append.mp he1 with he2 | he2
          · exact Or.inl he2
          · rw [List.mem_singleton] at he2
            refine Or.inr ⟨r + c, by omega, ?_⟩
            rw [he2]
        · exact Or.inr he1
    · rw [if_neg hlt]
      exact ih hnnrest st ⟨hinv1, hinv2, hinv3⟩ hu

theorem DInv_update_pq {st : DState} (hinv : DInv st)
    (rest : List (PF × String)) (hsub : ∀ e ∈ rest, e ∈ st.pq)
    (pr : List String) : DInv { st with pq := rest, processed := pr } := by
  obtain ⟨h1, h2, h3⟩ := hinv
  exact ⟨fun e he => h1 e (hsub e he), h2, h3⟩

theorem pop_nonstale_eq {st : DState} {du : PF} {u : String}
    {rest : List (PF × String)} (hinv : DInv st)
    (hpop : popMin st.pq = some ((du, u), rest))
    (hstale : ¬ du.gt (st.dist u) = true) :
    ∃ r : ℤ, 0 ≤ r ∧ du = PF.fin r ∧ st.dist u = PF.fin r := by
  obtain ⟨h1, h2, _⟩ := hinv
  obtain ⟨r, hr0, hrf, hdle⟩ := h1 (du, u) (popMin_mem hpop)
  have hrf2 : du = PF.fin r := hrf
  have hdle2 : (st.dist u).le (PF.fin r) = true := hdle
  refine ⟨r, hr0, hrf2, ?_⟩
  rw [PF.gt, hrf2] at hstale
  rcases h2 u with hi | ⟨s, _, hs⟩
  · rw [hi] at hdle2
    simp [PF.le] at hdle2
  · rw [hs] at hstale hdle2 ⊢
    rw [PF.le_fin_iff] at hdle2
    rw [PF.lt_fin_iff] at hstale
    congr 1
    omega

theorem pq_ne_nan {st : DState} (hinv : DInv st) :
    ∀ e ∈ st.pq, e.1 ≠ PF.nan := by
  intro e he
  obtain ⟨s, _, hsf, _⟩ := hinv.1 e he
  rw [hsf]
  simp

theorem dijkstraLoop_DInv (g : Graph) (hNN : g.NNCosts) (tgt : Option String) :
    ∀ (fuel : ℕ) (st st' : DState),
      dijkstraLoop g tgt fuel st = .ok st' → DInv st → DInv st' := by
  intro fuel
  induction fuel with
  | zero =>
    intro st st' h _
    rw [dijkstraLoop] at h
    exact absurd h (by simp)
  | succ fuel ih =>
    intro st st' h hinv
    rw [dijkstraLoop] at h
    split at h
    next heq =>
      simp at h
      subst h
      exact hinv
    next du u rest heq =>
      have hsub := popMin_rest_sub heq
      by_cases hstale : du.gt (st.dist u) = true
      · rw [if_pos hstale] at h
        exact ih _ st' h (DInv_update_pq hinv rest hsub st.processed)
      · rw [if_neg hstale] at h
        by_cases htgt : tgt = some u
        · rw [if_pos htgt] at h
          simp at h
          subst h
          exact DInv_update_pq hinv rest hsub (st.processed ++ [u])
        · rw [if_neg htgt] at h
          split at h
          next => exact absurd h (by simp)
          next nd heq2 =>
            obtain ⟨r, hr0, hdu, hdist⟩ := pop_nonstale_eq hinv heq hstale
            subst hdu
            have hmid : DInv
                { st with pq := rest, processed := st.processed ++ [u] } :=
              DInv_update_pq hinv rest hsub _
            have hnnn : ∀ p ∈ nd.neighbours, p.2.isNN :=
              fun p hp => hNN nd (List.mem_of_find?_eq_some heq2) p hp
            obtain ⟨hinv', _, _⟩ := relaxFold_main u r hr0 nd.neighbours hnnn
              { st with pq := rest, processed := st.processed ++ [u] }
              hmid hdist
            exact ih _ st' h hinv'

theorem dijkstraLoop_frozen (g : Graph) (hNN : g.NNCosts)
    (tgt : Option String) :
    ∀ (fuel : ℕ) (st st' : DState) (D : PF),
      dijkstraLoop g tgt fuel st = .ok st' →
      DInv st →
      (∀ e ∈ st.pq, D.le e.1 = true) →
      ∀ v, (st.dist v).le D = true →
        st'.dist v = st.dist v ∧ st'.prev v = st.prev v := by
  intro fuel
  induction fuel with
  | zero =>
    intro st st' D h _ _ v _
    rw [dijkstraLoop] at h
    exact absurd h (by simp)
  | succ fuel ih =>
    intro st st' D h hinv hpq v hv
    rw [dijkstraLoop] at h
    split at h
    next heq =>
      simp at h
      subst h
      exact ⟨rfl, rfl⟩
    next du u rest heq =>
      have hsub := popMin_rest_sub heq
      by_cases hstale : du.gt (st.dist u) = true
      · rw [if_pos hstale] at h
        exact ih _ st' D h (DInv_update_pq hinv rest hsub st.processed)
          (fun e he => hpq e (hsub e he)) v hv
      · rw [if_neg hstale] at h
        by_cases htgt : tgt = some u
        · rw [if_pos htgt] at h
          simp at h
          subst h
          exact ⟨rfl, rfl⟩
        · rw [if_neg htgt] at h
          split at h
          next => exact absurd h (by simp)
          next nd heq2 =>
            obtain ⟨r, hr0, hdu, hdist⟩ := pop_nonstale_eq hinv heq hstale
            subst hdu
            have hmid : DInv
                { st with pq := rest, processed := st.processed ++ [u] } :=
              DInv_update_pq hinv rest hsub _
            have hnnn : ∀ p ∈ nd.neighbours, p.2.isNN :=
              fun p hp => hNN nd (List.mem_of_find?_eq_some heq2) p hp
            have hDr : D.le (PF.fin r) = true := hpq (PF.fin r, u)
              (popMin_mem heq)
            obtain ⟨hinv', hfro, hpq'⟩ := relaxFold_main u r hr0 nd.neighbours
              hnnn { st with pq := rest, processed := st.processed ++ [u] }
              hmid hdist
            have hvr : (st.dist v).le (PF.fin r) = true := PF.le_trans hv hDr
            obtain ⟨hfd, hfp⟩ := hfro v hvr
            have hpq2 : ∀ e, e ∈ (relaxFold u (PF.fin r) nd.neighbours { st with pq := rest, processed := st.processed ++ [u] }).pq → D.le e.1 = true := by
              intro e he
              rcases hpq' e he with he1 | ⟨s, hsr, hes⟩
              · exact hpq e (hsub e he1)
              · rw [hes]
                exact PF.le_trans hDr (PF.le_fin_iff.mpr hsr)
            have hvd : ((relaxFold u (PF.fin r) nd.neighbours { st with pq := rest, processed := st.processed ++ [u] }).dist v).le D = true := by
              rw [hfd]
              exact hv
            obtain ⟨ha, hb⟩ := ih _ st' D h hinv'
              (fun e he => hpq2 e he) v hvd
            exact ⟨ha.trans hfd, hb.trans hfp⟩

theorem dijkstraLoop_early_full (g : Graph) (hNN : g.NNCosts) (t : String) :
    ∀ (fe ff : ℕ) (st se sf : DState),
      dijkstraLoop g (some t) fe st = .ok se →
      dijkstraLoop g none ff st = .ok sf →
      DInv st →
      ∀ v, (se.dist v).le (se.dist t) = true →
        sf.dist v = se.dist v ∧ sf.prev v = se.prev v := by
  intro fe
  induction fe with
  | zero =>
    intro ff st se sf he _ _ v _
    rw [dijkstraLoop] at he
    exact absurd he (by simp)
  | succ fe ih =>
    intro ff st se sf he hf hinv v hv
    match ff with
    | 0 =>
      rw [dijkstraLoop] at hf
      exact absurd hf (by simp)
    | ff + 1 =>
      rw [dijkstraLoop] at he hf
      split at he
      next heq =>
        rw [heq] at hf
        simp at he hf
        subst he
        subst hf
        exact ⟨rfl, rfl⟩
      next du u rest heq =>
        rw [heq] at hf
        dsimp only at hf
        have hsub := popMin_rest_sub heq
        by_cases hstale : du.gt (st.dist u) = true
        · rw [if_pos hstale] at he hf
          exact ih ff _ se sf he hf
            (DInv_update_pq hinv rest hsub st.processed) v hv
        · rw [if_neg hstale] at he hf
          rw [if_neg (by simp : ¬ (none : Option String) = some u)] at hf
          obtain ⟨r, hr0, hdu, hdist⟩ := pop_nonstale_eq hinv heq hstale
          subst hdu
          by_cases htgt : (some t : Option String) = some u
          · -- the early run pops the target and stops here
            rw [if_pos htgt] at he
            have htu : t = u := by injection htgt
            simp only [PyRes.ok.injEq] at he
            split at hf
            next => exact absurd hf (by simp)
            next nd heq2 =>
              have hmid : DInv
                  { st with pq := rest, processed := st.processed ++ [u] } :=
                DInv_update_pq hinv rest hsub _
              have hnnn : ∀ p ∈ nd.neighbours, p.2.isNN :=
                fun p hp => hNN nd (List.mem_of_find?_eq_some heq2) p hp
              obtain ⟨hinv', hfro, hpq'⟩ := relaxFold_main u r hr0
                nd.neighbours hnnn
                { st with pq := rest, processed := st.processed ++ [u] }
                hmid hdist
              -- all entries still queued are at least the popped priority
              have hrge : ∀ e, e ∈ rest → (PF.fin r).le e.1 = true := by
                intro e hee
                have hnl := popMin_not_lt heq (pq_ne_nan hinv) e (hsub e hee)
                have hene := pq_ne_nan hinv e (hsub e hee)
                exact PF.le_of_not_lt hene (by simp)
                  (by rw [hnl]; simp)
              have hpq2 : ∀ e, e ∈ (relaxFold u (PF.fin r) nd.neighbours { st with pq := rest, processed := st.processed ++ [u] }).pq → (PF.fin r).le e.1 = true := by
                intro e hee
                rcases hpq' e hee with he1 | ⟨s, hsr, hes⟩
                · exact hrge e he1
                · rw [hes]
                  exact PF.le_fin_iff.mpr hsr
              -- the early-exit distances of v and t, expressed over st
              have hvst : (st.dist v).le (PF.fin r) = true := by
                have h1 : se.dist v = st.dist v := by rw [← he]
                have h2 : se.dist t = st.dist t := by rw [← he]
                rw [h1, h2, htu, hdist] at hv
                exact hv
              obtain ⟨hfd, hfp⟩ := hfro v hvst
              have hvd : ((relaxFold u (PF.fin r) nd.neighbours { st with pq := rest, processed := st.processed ++ [u] }).dist v).le (PF.fin r) = true := by
                rw [hfd]
                exact hvst
              obtain ⟨ha, hb⟩ := dijkstraLoop_frozen g hNN none ff _ sf
                (PF.fin r) hf hinv' (fun e he2 => hpq2 e he2) v hvd
              constructor
              · rw [ha, hfd, ← he]
              · rw [hb, hfp, ← he]
          · -- both runs relax the popped node and continue in lock step
            rw [if_neg htgt] at he
            split at he
            next heq2 =>
              rw [heq2] at hf
              exact absurd he (by simp)
            next nd heq2 =>
              rw [heq2] at hf
              dsimp only at hf
              have hmid : DInv { st with pq := rest, processed := st.processed ++ [u] } :=
                DInv_update_pq hinv rest hsub _
              have hnnn : ∀ p ∈ nd.neighbours, p.2.isNN :=
                fun p hp => hNN nd (List.mem_of_find?_eq_some heq2) p hp
              obtain ⟨hinv', _, _⟩ := relaxFold_main u r hr0 nd.neighbours hnnn
                { st with pq := rest, processed := st.processed ++ [u] } hmid hdist
              exact ih ff _ se sf he hf hinv' v hv

theorem reconWalk_congr (keys : List String) (p1 p2 : String → Option String)
    (source : String) (dist : String → PF) (D : PF)
    (hag : ∀ v, (dist v).le D = true → p1 v = p2 v)
    (hchain : ∀ v u, p1 v = some u → (dist u).le (dist v) = true) :
    ∀ (fuel : ℕ) (cur : Option String) (path : List String),
      (∀ x, cur = some x → (dist x).le D = true) →
      reconWalk keys p1 source fuel cur path
        = reconWalk keys p2 source fuel cur path := by
  intro fuel
  induction fuel with
  | zero =>
    intro cur path _
    match cur with
    | none => rfl
    | some x => rfl
  | succ fuel ih =>
    intro cur path hcur
    match cur with
    | none => rfl
    | some x =>
      rw [reconWalk, reconWalk]
      by_cases hs : x = source
      · rw [if_pos hs, if_pos hs]
      · rw [if_neg hs, if_neg hs]
        by_cases hk : x ∈ keys
        · rw [if_pos hk, if_pos hk]
          have hx := hcur x rfl
          rw [← hag x hx]
          apply ih
          intro y hy
          exact PF.le_trans (hchain x y hy) hx
        · rw [if_neg hk, if_neg hk]

theorem DInv_init (source : String) : DInv (dijkstraInit source) := by
  refine ⟨?_, ?_, ?_⟩
  · intro e he
    have he2 : e = (PF.fin 0, source) := by
      simpa [dijkstraInit] using he
    subst he2
    refine ⟨0, le_refl 0, rfl, ?_⟩
    show ((dijkstraInit source).dist source).le (PF.fin 0) = true
    simp [dijkstraInit, PF.le]
  · intro v
    by_cases hv : v = source
    · exact Or.inr ⟨0, le_refl 0, by simp [dijkstraInit, hv]⟩
    · exact Or.inl (by simp [dijkstraInit, hv])
  · intro v u hvu
    simp [dijkstraInit] at hvu

/-- C5: over any graph with non-negative edge costs, an early-exit run of
`dijkstra` (with a `target` supplied) and a full run (no target) that both
return agree on `distances[target]` and reconstruct the same path to the
target, whatever step budgets the two runs and the walk are given.  The two
runs coincide up to the moment the target is popped, and from then on the
full run can never improve the distance or predecessor of any node whose
tentative distance does not exceed the target's, which covers the target
itself and the whole predecessor chain behind it. -/
theorem dijkstra_early_exit_equiv (g : Graph) (hNN : g.NNCosts)
    (source target : String) (fe ff fr : ℕ) (se sf : DState)
    (he : dijkstra g source (some target) fe = .ok se)
    (hf : dijkstra g source none ff = .ok sf) :
    se.dist target = sf.dist target ∧
    reconstructPath g.ids se.prev source target fr
      = reconstructPath g.ids sf.prev source target fr := by
  have hinv0 := DInv_init source
  have hmain := dijkstraLoop_early_full g hNN target fe ff
    (dijkstraInit source) se sf he hf hinv0
  have hDse : DInv se := dijkstraLoop_DInv g hNN (some target) fe
    (dijkstraInit source) se he hinv0
  have htne : se.dist target ≠ PF.nan := by
    rcases hDse.2.1 target with h1 | ⟨s, _, h1⟩ <;> rw [h1] <;> simp
  have htt : (se.dist target).le (se.dist target) = true := PF.le_refl htne
  obtain ⟨hdt, hpt⟩ := hmain target htt
  refine ⟨hdt.symm, ?_⟩
  rw [reconstructPath, reconstructPath]
  by_cases h1 : target = source
  · rw [if_pos h1, if_pos h1]
  · rw [if_neg h1, if_neg h1]
    rw [hpt]
    by_cases h2 : target ∉ g.ids ∨ se.prev target = none
    · rw [if_pos h2, if_pos h2]
    · rw [if_neg h2, if_neg h2]
      apply reconWalk_congr g.ids se.prev sf.prev source se.dist
        (se.dist target) (fun v hvle => (hmain v hvle).2.symm)
        (fun v u hvu => hDse.2.2 v u hvu) fr (some target) []
      intro x hx
      injection hx with hx2
      rw [← hx2]
      exact htt

/-- Closed-form instance of `dijkstra_early_exit_equiv` on the triangle
graph: the early-exit run to `B` and the full run agree on the distance of
`B` and on the reconstructed path. -/
theorem dijkstra_early_exit_equiv_witness :
    (gTri.NNCosts ∧ dijkstra gTri "A" (some "B") 20 = .ok seTri ∧
      dijkstra gTri "A" none 20 = .ok sfTri) ∧
    (seTri.dist "B" = sfTri.dist "B" ∧
      reconstructPath gTri.ids seTri.prev "A" "B" 20
        = reconstructPath gTri.ids sfTri.prev "A" "B" 20) :=
  ⟨⟨by rw [Graph.NNCosts]; decide, rfl, rfl⟩,
    dijkstra_early_exit_equiv gTri (by rw [Graph.NNCosts]; decide) "A" "B"
      20 20 20 seTri sfTri rfl rfl⟩
